import Mathlib

/-! Reconciliation of the ALLOPS roster with the V2 sheet.

A shallow embedding of `main.go`: the normalizer, positional cell access, the
name splitter, header detection, the roster index and the reconcile loop,
followed by the properties proved about them.

Go strings are modelled as `String` (sequences of Unicode code points, i.e.
valid UTF-8), Go `int` as `Int`, slice positions as `Nat`, and a Go
`map[string]V` as an association list whose most recent binding of a key is
the one that is read.  A sheet is the grid of rows returned by `GetRows`.
-/

namespace SupeSync

/-! ## The pieces of Go's `strings` and `unicode` packages that the program uses -/

/-- White space in the sense of Go's `unicode.IsSpace`: tab, line feed, vertical tab,
form feed, carriage return, space, U+0085, U+00A0 and the characters of category Z
with the White_Space property. -/
def isSpace (c : Char) : Bool :=
  let n := c.toNat
  n == 0x20 || (0x09 ≤ n && n ≤ 0x0D) || n == 0x85 || n == 0xA0 || n == 0x1680 ||
    (0x2000 ≤ n && n ≤ 0x200A) || n == 0x2028 || n == 0x2029 || n == 0x202F ||
    n == 0x205F || n == 0x3000

/-- The simple lower-case mappings of Unicode 17.0 (the version of Go 1.27) as ranges
`(lo, hi, stride, delta)`: every code point `lo + stride * k ≤ hi` is mapped to itself
plus `delta`.  This is the content of the `LowerCase` column of Go's
`unicode.CaseRanges`. -/
def lowerRanges : List (Nat × Nat × Nat × Int) :=
  [
    (65, 90, 1, 32), (192, 214, 1, 32), (216, 222, 1, 32), (256, 302, 2, 1),
    (304, 304, 1, -199), (306, 310, 2, 1), (313, 327, 2, 1), (330, 374, 2, 1),
    (376, 376, 1, -121), (377, 381, 2, 1), (385, 385, 1, 210), (386, 388, 2, 1),
    (390, 390, 1, 206), (391, 391, 1, 1), (393, 394, 1, 205), (395, 395, 1, 1),
    (398, 398, 1, 79), (399, 399, 1, 202), (400, 400, 1, 203), (401, 401, 1, 1),
    (403, 403, 1, 205), (404, 404, 1, 207), (406, 406, 1, 211), (407, 407, 1, 209),
    (408, 408, 1, 1), (412, 412, 1, 211), (413, 413, 1, 213), (415, 415, 1, 214),
    (416, 420, 2, 1), (422, 422, 1, 218), (423, 423, 1, 1), (425, 425, 1, 218),
    (428, 428, 1, 1), (430, 430, 1, 218), (431, 431, 1, 1), (433, 434, 1, 217),
    (435, 437, 2, 1), (439, 439, 1, 219), (440, 440, 1, 1), (444, 444, 1, 1), (452, 452, 1, 2),
    (453, 453, 1, 1), (455, 455, 1, 2), (456, 456, 1, 1), (458, 458, 1, 2), (459, 475, 2, 1),
    (478, 494, 2, 1), (497, 497, 1, 2), (498, 500, 2, 1), (502, 502, 1, -97),
    (503, 503, 1, -56), (504, 542, 2, 1), (544, 544, 1, -130), (546, 562, 2, 1),
    (570, 570, 1, 10795), (571, 571, 1, 1), (573, 573, 1, -163), (574, 574, 1, 10792),
    (577, 577, 1, 1), (579, 579, 1, -195), (580, 580, 1, 69), (581, 581, 1, 71),
    (582, 590, 2, 1), (880, 882, 2, 1), (886, 886, 1, 1), (895, 895, 1, 116), (902, 902, 1, 38),
    (904, 906, 1, 37), (908, 908, 1, 64), (910, 911, 1, 63), (913, 929, 1, 32),
    (931, 939, 1, 32), (975, 975, 1, 8), (984, 1006, 2, 1), (1012, 1012, 1, -60),
    (1015, 1015, 1, 1), (1017, 1017, 1, -7), (1018, 1018, 1, 1), (1021, 1023, 1, -130),
    (1024, 1039, 1, 80), (1040, 1071, 1, 32), (1120, 1152, 2, 1), (1162, 1214, 2, 1),
    (1216, 1216, 1, 15), (1217, 1229, 2, 1), (1232, 1326, 2, 1), (1329, 1366, 1, 48),
    (4256, 4293, 1, 7264), (4295, 4295, 1, 7264), (4301, 4301, 1, 7264), (5024, 5103, 1, 38864),
    (5104, 5109, 1, 8), (7305, 7305, 1, 1), (7312, 7354, 1, -3008), (7357, 7359, 1, -3008),
    (7680, 7828, 2, 1), (7838, 7838, 1, -7615), (7840, 7934, 2, 1), (7944, 7951, 1, -8),
    (7960, 7965, 1, -8), (7976, 7983, 1, -8), (7992, 7999, 1, -8), (8008, 8013, 1, -8),
    (8025, 8031, 2, -8), (8040, 8047, 1, -8), (8072, 8079, 1, -8), (8088, 8095, 1, -8),
    (8104, 8111, 1, -8), (8120, 8121, 1, -8), (8122, 8123, 1, -74), (8124, 8124, 1, -9),
    (8136, 8139, 1, -86), (8140, 8140, 1, -9), (8152, 8153, 1, -8), (8154, 8155, 1, -100),
    (8168, 8169, 1, -8), (8170, 8171, 1, -112), (8172, 8172, 1, -7), (8184, 8185, 1, -128),
    (8186, 8187, 1, -126), (8188, 8188, 1, -9), (8486, 8486, 1, -7517), (8490, 8490, 1, -8383),
    (8491, 8491, 1, -8262), (8498, 8498, 1, 28), (8544, 8559, 1, 16), (8579, 8579, 1, 1),
    (9398, 9423, 1, 26), (11264, 11311, 1, 48), (11360, 11360, 1, 1), (11362, 11362, 1, -10743),
    (11363, 11363, 1, -3814), (11364, 11364, 1, -10727), (11367, 11371, 2, 1),
    (11373, 11373, 1, -10780), (11374, 11374, 1, -10749), (11375, 11375, 1, -10783),
    (11376, 11376, 1, -10782), (11378, 11378, 1, 1), (11381, 11381, 1, 1),
    (11390, 11391, 1, -10815), (11392, 11490, 2, 1), (11499, 11501, 2, 1), (11506, 11506, 1, 1),
    (42560, 42604, 2, 1), (42624, 42650, 2, 1), (42786, 42798, 2, 1), (42802, 42862, 2, 1),
    (42873, 42875, 2, 1), (42877, 42877, 1, -35332), (42878, 42886, 2, 1), (42891, 42891, 1, 1),
    (42893, 42893, 1, -42280), (42896, 42898, 2, 1), (42902, 42920, 2, 1),
    (42922, 42922, 1, -42308), (42923, 42923, 1, -42319), (42924, 42924, 1, -42315),
    (42925, 42925, 1, -42305), (42926, 42926, 1, -42308), (42928, 42928, 1, -42258),
    (42929, 42929, 1, -42282), (42930, 42930, 1, -42261), (42931, 42931, 1, 928),
    (42932, 42946, 2, 1), (42948, 42948, 1, -48), (42949, 42949, 1, -42307),
    (42950, 42950, 1, -35384), (42951, 42953, 2, 1), (42955, 42955, 1, -42343),
    (42956, 42970, 2, 1), (42972, 42972, 1, -42561), (42997, 42997, 1, 1),
    (65313, 65338, 1, 32), (66560, 66599, 1, 40), (66736, 66771, 1, 40), (66928, 66938, 1, 39),
    (66940, 66954, 1, 39), (66956, 66962, 1, 39), (66964, 66965, 1, 39), (68736, 68786, 1, 64),
    (68944, 68965, 1, 32), (71840, 71871, 1, 32), (93760, 93791, 1, 32), (93856, 93880, 1, 27),
    (125184, 125217, 1, 34)
  ]

/-- The lower-case offset of code point `n` in a list of case ranges (`0` when no range
contains it). -/
def caseDelta (n : Nat) : List (Nat × Nat × Nat × Int) → Int
  | [] => 0
  | (lo, hi, stride, delta) :: rest =>
    if lo ≤ n ∧ n ≤ hi ∧ (n - lo) % stride = 0 then delta else caseDelta n rest

/-- Go's `unicode.ToLower` on one rune: the ASCII fast path, then the case ranges. -/
def toLowerRune (c : Char) : Char :=
  if c.toNat < 128 then
    if 'A'.toNat ≤ c.toNat ∧ c.toNat ≤ 'Z'.toNat then Char.ofNat (c.toNat + 32) else c
  else Char.ofNat (c.toNat + caseDelta c.toNat lowerRanges).toNat

/-- Go's `strings.ToLower`: every rune mapped by `unicode.ToLower`. -/
def toLower (s : String) : String := ⟨s.data.map toLowerRune⟩

/-- Go's `strings.TrimSpace`: leading and trailing white space removed. -/
def trimSpace (s : String) : String := ⟨(s.data.dropWhile isSpace).rdropWhile isSpace⟩

/-- Go's `strings.ReplaceAll` for a one-rune pattern and a one-rune replacement. -/
def replaceAll (s : String) (old new : Char) : String :=
  ⟨s.data.map fun c => if c = old then new else c⟩

/-- Go's `strings.Fields`: the maximal runs of non-space runes, in order. -/
def fields (s : String) : List String :=
  ((s.data.splitOnP isSpace).filter fun w => !w.isEmpty).map String.mk

/-- Go's `strings.Join`. -/
def join (parts : List String) (sep : String) : String := sep.intercalate parts

/-- Go's `strings.Contains` for a one-rune pattern. -/
def containsRune (s : String) (c : Char) : Bool := s.data.contains c

/-- Go's `strings.Split` for a one-rune separator: `n` separators give `n + 1` parts. -/
def split (s : String) (sep : Char) : List String :=
  (s.data.splitOnP fun c => c == sep).map String.mk

/-! ## Data model -/

/-- The Go struct `DriverInfo`. -/
structure DriverInfo where
  FirstName : String
  LastName : String
  ColleagueID : String
  ManagerName : String
deriving DecidableEq, Repr

/-- A Go `map[string]V`: the bindings written so far, most recent first. -/
structure GoMap (V : Type) where
  entries : List (String × V)
deriving DecidableEq, Repr

/-- The value of the first binding of `k` in a list of bindings. -/
def lookupEntry {V : Type} (k : String) : List (String × V) → Option V
  | [] => none
  | (k', v) :: rest => if k' = k then some v else lookupEntry k rest

namespace GoMap

/-- The literal `map[string]V{}`. -/
def empty {V : Type} : GoMap V := ⟨[]⟩

/-- The assignment `m[k] = v`. -/
def set {V : Type} (m : GoMap V) (k : String) (v : V) : GoMap V := ⟨(k, v) :: m.entries⟩

/-- The two-valued read `v, ok := m[k]`. -/
def get? {V : Type} (m : GoMap V) (k : String) : Option V := lookupEntry k m.entries

/-- The one-valued read `m[k]`, which yields the zero value `zero` for an absent key. -/
def getOr {V : Type} (m : GoMap V) (k : String) (zero : V) : V := (m.get? k).getD zero

end GoMap

/-- The failures of a run that arise inside the core (the others belong to the file layer). -/
inductive RunError where
  | HeaderNotFound
  | StructuralAssertionError
deriving DecidableEq, Repr

deriving instance DecidableEq for Except

/-- One row of the "master list" sheet: the four cells written by the loop over `values`. -/
structure MasterRow where
  ColleagueID : String
  FirstName : String
  LastName : String
  SupervisorName : String
deriving DecidableEq, Repr

/-- One supervisor overwrite on the V2 sheet, in grid coordinates: `row` is the position
`i` of the row in the grid and `col` the column index `v2Headers["supervisor name"]`; the
program addresses the cell as `CoordinatesToCellName(col + 1, row + 1)`. -/
structure Correction where
  row : Nat
  col : Int
  value : String
deriving DecidableEq, Repr

/-! ## The functions of `main.go` -/

/-- The function `normalize`. -/
def normalize (s : String) : String :=
  let s := toLower (trimSpace s)
  let s := replaceAll s '\u00a0' ' '
  let s := replaceAll s '\n' ' '
  let s := replaceAll s '\r' ' '
  let s := join (fields s) " "
  s

/-- The function `cell`. -/
def cell (row : List String) (idx : Int) : String :=
  if idx < 0 ∨ idx ≥ row.length then ""
  else trimSpace (row.getD idx.toNat "")

/-- The function `splitDriverName`. -/
def splitDriverName (full : String) : String × String :=
  let full := trimSpace full
  if full = "" then ("", "")
  else
    let commaParts := split full ','
    if containsRune full ',' ∧ commaParts.length = 2 then
      (trimSpace (commaParts.getD 1 ""), trimSpace (commaParts.getD 0 ""))
    else
      let parts := fields full
      if parts.length < 2 then ("", "")
      else (parts.getD 0 "", parts.getD (parts.length - 1) "")

/-- The inner loop of `findHeaderRow` from column `cIdx` on: every cell whose normalized
text is non-empty binds that text to its column index. -/
def rowHeadersFrom : List String → Nat → GoMap Int → GoMap Int
  | [], _, headers => headers
  | v :: vs, cIdx, headers =>
    let n := normalize v
    rowHeadersFrom vs (cIdx + 1) (if n ≠ "" then headers.set n (cIdx : Int) else headers)

/-- The map `headers` that `findHeaderRow` builds for one row. -/
def rowHeaders (row : List String) : GoMap Int := rowHeadersFrom row 0 GoMap.empty

/-- The flag `matched` of `findHeaderRow`: every required label, normalized, is a key. -/
def matched (headers : GoMap Int) (required : List String) : Bool :=
  required.all fun req => (headers.get? (normalize req)).isSome

/-- The outer loop of `findHeaderRow` from row `rIdx` on. -/
def findHeaderRowFrom : List (List String) → Nat → List String →
    Except RunError (GoMap Int × Nat)
  | [], _, _ => .error .HeaderNotFound
  | row :: rows, rIdx, required =>
    let headers := rowHeaders row
    if matched headers required then .ok (headers, rIdx)
    else findHeaderRowFrom rows (rIdx + 1) required

/-- The function `findHeaderRow` on the rows of the sheet. -/
def findHeaderRow (rows : List (List String)) (required : List String) :
    Except RunError (GoMap Int × Nat) :=
  findHeaderRowFrom rows 0 required

/-- The labels required of the ALLOPS sheet. -/
def allopsRequired : List String :=
  ["preferred first name", "legal last name", "colleague id", "manager - name", "business area"]

/-- The labels required of the V2 sheet. -/
def v2Required : List String := ["driver name", "supervisor name"]

/-- The safety assertion of `main` on the ALLOPS header map. -/
def structuralCheck (allopsHeaders : GoMap Int) : Except RunError Unit :=
  if allopsHeaders.getOr "manager - name" 0 ≤ allopsHeaders.getOr "business area" 0 then
    .error .StructuralAssertionError
  else .ok ()

/-- The lookup key of a (first, last) pair. -/
def nameKey (first last : String) : String := normalize first ++ "|" ++ normalize last

/-- The body of the loop that fills `driverMap`, for one ALLOPS row. -/
def indexRow (allopsHeaders : GoMap Int) (driverMap : GoMap DriverInfo) (row : List String) :
    GoMap DriverInfo :=
  let first := cell row (allopsHeaders.getOr "preferred first name" 0)
  let last := cell row (allopsHeaders.getOr "legal last name" 0)
  let id := cell row (allopsHeaders.getOr "colleague id" 0)
  let manager := cell row (allopsHeaders.getOr "manager - name" 0)
  if first = "" ∨ last = "" ∨ id = "" then driverMap
  else
    driverMap.set (nameKey first last)
      { FirstName := first, LastName := last, ColleagueID := id, ManagerName := manager }

/-- The loop "BUILD ALLOPS LOOKUP": the rows after the header row, top to bottom. -/
def buildIndex (allopsRows : List (List String)) (allopsHeaders : GoMap Int)
    (allopsHeaderRow : Nat) : GoMap DriverInfo :=
  (allopsRows.drop (allopsHeaderRow + 1)).foldl (indexRow allopsHeaders) GoMap.empty

/-- The variables that the loop "PROCESS V2 DATA" updates: the master sheet rows written
so far, the next free master row number, the set `written`, and the overwrites made. -/
structure ReconState where
  master : List MasterRow
  masterRow : Nat
  written : GoMap Bool
  corrections : List Correction
deriving DecidableEq, Repr

/-- The state before the loop: an empty master list whose first data row is row 2. -/
def ReconState.init : ReconState :=
  { master := [], masterRow := 2, written := GoMap.empty, corrections := [] }

/-- The part "Deduplicated master list" of the loop body. -/
def emitMaster (st : ReconState) (info : DriverInfo) : ReconState :=
  if !(st.written.getOr info.ColleagueID false) then
    { st with
      master := st.master ++ [⟨info.ColleagueID, info.FirstName, info.LastName, info.ManagerName⟩]
      written := st.written.set info.ColleagueID true
      masterRow := st.masterRow + 1 }
  else st

/-- The part "Supervisor correction" of the loop body. -/
def correctSupervisor (v2Headers : GoMap Int) (st : ReconState) (i : Nat) (row : List String)
    (info : DriverInfo) : ReconState :=
  let current := cell row (v2Headers.getOr "supervisor name" 0)
  if normalize current ≠ normalize info.ManagerName then
    { st with
      corrections :=
        st.corrections ++ [⟨i, v2Headers.getOr "supervisor name" 0, info.ManagerName⟩] }
  else st

/-- The body of the loop "PROCESS V2 DATA" for the row at position `i`. -/
def reconcileRow (v2Headers : GoMap Int) (driverMap : GoMap DriverInfo) (st : ReconState)
    (i : Nat) (row : List String) : ReconState :=
  let driver := cell row (v2Headers.getOr "driver name" 0)
  let (first, last) := splitDriverName driver
  if first = "" ∨ last = "" then st
  else
    match driverMap.get? (nameKey first last) with
    | none => st
    | some info => correctSupervisor v2Headers (emitMaster st info) i row info

/-- The loop "PROCESS V2 DATA" over the rows from position `i` on. -/
def reconcileFrom (v2Headers : GoMap Int) (driverMap : GoMap DriverInfo) :
    List (List String) → Nat → ReconState → ReconState
  | [], _, st => st
  | row :: rows, i, st =>
    reconcileFrom v2Headers driverMap rows (i + 1) (reconcileRow v2Headers driverMap st i row)

/-- The loop "PROCESS V2 DATA": the Master List and the Correction Set it produces. -/
def reconcile (v2Rows : List (List String)) (v2Headers : GoMap Int) (v2HeaderRow : Nat)
    (driverMap : GoMap DriverInfo) : List MasterRow × List Correction :=
  let st := reconcileFrom v2Headers driverMap (v2Rows.drop (v2HeaderRow + 1)) (v2HeaderRow + 1)
    ReconState.init
  (st.master, st.corrections)

/-- The core of `main`: header detection on both grids, the safety assertion, the roster
index and the reconcile loop. -/
def run (allopsRows v2Rows : List (List String)) :
    Except RunError (List MasterRow × List Correction) :=
  match findHeaderRow allopsRows allopsRequired with
  | .error e => .error e
  | .ok (allopsHeaders, allopsHeaderRow) =>
    match structuralCheck allopsHeaders with
    | .error e => .error e
    | .ok _ =>
      match findHeaderRow v2Rows v2Required with
      | .error e => .error e
      | .ok (v2Headers, v2HeaderRow) =>
        .ok (reconcile v2Rows v2Headers v2HeaderRow
          (buildIndex allopsRows allopsHeaders allopsHeaderRow))

/-! ## Reading of the claims: the scenario grids and the reference descriptions -/

/-- The master row made from a roster record: its four fields, unchanged. -/
def DriverInfo.toMasterRow (info : DriverInfo) : MasterRow :=
  ⟨info.ColleagueID, info.FirstName, info.LastName, info.ManagerName⟩

/-- The authoritative grid of the end-to-end scenario. -/
def scenarioAllops : List (List String) :=
  [["Preferred First Name", "Legal Last Name", "Colleague ID", "Manager - Name", "Business Area"],
   ["Jane", "Doe", "C123", "Bob Smith", "East"]]

/-- The secondary grid of the end-to-end scenario. -/
def scenarioV2 : List (List String) :=
  [["Driver Name", "Supervisor Name"], ["Doe, Jane", "Bob Jones"]]

/-- The authoritative grid of the scenario with its last two columns exchanged, so that
"Business Area" stands before "Manager - Name". -/
def scenarioAllopsSwapped : List (List String) :=
  [["Preferred First Name", "Legal Last Name", "Colleague ID", "Business Area", "Manager - Name"],
   ["Jane", "Doe", "C123", "East", "Bob Smith"]]

/-- The Master List expected by the end-to-end scenario. -/
def scenarioMaster : List MasterRow := [⟨"C123", "Jane", "Doe", "Bob Smith"⟩]

/-- The Correction Set expected by the end-to-end scenario: row 1, the supervisor column
(column 1 of the secondary grid), "Bob Smith". -/
def scenarioCorrections : List Correction := [⟨1, 1, "Bob Smith"⟩]

/-- A header map in which "manager - name" resolves to 3 and "business area" to 4. -/
def managerBeforeArea : GoMap Int := ⟨[("business area", 4), ("manager - name", 3)]⟩

/-- The roster record that a secondary row is matched to: the driver-name cell is split,
both parts must be non-empty, and the key of the parts must be in the index. -/
def matchRow (v2Headers : GoMap Int) (driverMap : GoMap DriverInfo) (row : List String) :
    Option DriverInfo :=
  let name := splitDriverName (cell row (v2Headers.getOr "driver name" 0))
  if name.1 = "" ∨ name.2 = "" then none
  else driverMap.get? (nameKey name.1 name.2)

/-- A sequence of records with, for every ColleagueID, only its first record kept. -/
def firstEncounters : List DriverInfo → List DriverInfo
  | [] => []
  | r :: rs => r :: (firstEncounters rs).filter fun r' => r'.ColleagueID ≠ r.ColleagueID

/-- The corrections that the claim on supervisor correction expects for a matched row:
one triple with the raw manager name when the normalized supervisor cell differs from
the normalized manager name, none otherwise. -/
def expectedCorrection (v2Headers : GoMap Int) (i : Nat) (row : List String)
    (info : DriverInfo) : List Correction :=
  if normalize (cell row (v2Headers.getOr "supervisor name" 0)) ≠ normalize info.ManagerName
  then [⟨i, v2Headers.getOr "supervisor name" 0, info.ManagerName⟩]
  else []

/-- The corrections of the rows from position `i` on, row by row. -/
def correctionsFrom (v2Headers : GoMap Int) (driverMap : GoMap DriverInfo) :
    List (List String) → Nat → List Correction
  | [], _ => []
  | row :: rows, i =>
    (match matchRow v2Headers driverMap row with
      | none => []
      | some info => expectedCorrection v2Headers i row info) ++
      correctionsFrom v2Headers driverMap rows (i + 1)

/-- The record that the index loop reads from an ALLOPS row: the trimmed first-name,
last-name, identifier and manager cells. -/
def readRecord (allopsHeaders : GoMap Int) (row : List String) : DriverInfo :=
  { FirstName := cell row (allopsHeaders.getOr "preferred first name" 0)
    LastName := cell row (allopsHeaders.getOr "legal last name" 0)
    ColleagueID := cell row (allopsHeaders.getOr "colleague id" 0)
    ManagerName := cell row (allopsHeaders.getOr "manager - name" 0) }

/-- An ALLOPS row qualifies for key `k`: its trimmed first-name, last-name and identifier
cells are all non-empty and its normalized names make the key `k`. -/
def qualifiesFor (allopsHeaders : GoMap Int) (k : String) (row : List String) : Bool :=
  decide ((readRecord allopsHeaders row).FirstName ≠ "") &&
    decide ((readRecord allopsHeaders row).LastName ≠ "") &&
    decide ((readRecord allopsHeaders row).ColleagueID ≠ "") &&
    decide (nameKey (readRecord allopsHeaders row).FirstName
      (readRecord allopsHeaders row).LastName = k)

/-- An authoritative grid with one person whose last name contains the separator. -/
def separatorAllops : List (List String) :=
  [["Preferred First Name", "Legal Last Name", "Colleague ID", "Business Area", "Manager - Name"],
   ["a", "b|c", "7", "East", "m"]]

/-- A secondary grid naming a different person, whose first name contains the separator. -/
def separatorV2 : List (List String) :=
  [["Driver Name", "Supervisor Name"], ["c, a|b", "m"]]

/-- A row contains the required labels: every required label, normalized, is the
normalized text of a cell of the row whose normalized text is non-empty. -/
def rowQualifies (required : List String) (row : List String) : Prop :=
  ∀ req ∈ required, ∃ v ∈ row, normalize v ≠ "" ∧ normalize v = normalize req

/-! ## Case ranges: the checks behind the facts on lower-casing -/

/-- The test of `isSpace` on a code point. -/
def isSpaceNat (n : Nat) : Bool :=
  n == 0x20 || (0x09 ≤ n && n ≤ 0x0D) || n == 0x85 || n == 0xA0 || n == 0x1680 ||
    (0x2000 ≤ n && n ≤ 0x200A) || n == 0x2028 || n == 0x2029 || n == 0x202F ||
    n == 0x205F || n == 0x3000

/-- The code point of `toLowerRune`, on code points. -/
def lowerNat (n : Nat) : Nat :=
  if n < 128 then
    if 65 ≤ n ∧ n ≤ 90 then n + 32 else n
  else (n + caseDelta n lowerRanges).toNat

/-- The white-space code points as closed spans. -/
def spaceSpans : List (Nat × Nat) :=
  [(0x09, 0x0D), (0x20, 0x20), (0x85, 0x85), (0xA0, 0xA0), (0x1680, 0x1680), (0x2000, 0x200A),
   (0x2028, 0x2029), (0x202F, 0x202F), (0x205F, 0x205F), (0x3000, 0x3000)]

/-- No white-space code point lies between `a` and `b`. -/
def spanFree (a b : Nat) : Bool :=
  spaceSpans.all fun sp => Nat.blt b sp.1 || Nat.blt sp.2 a

/-- The code points `a .. b` contain no code point of case range `e'`: the two spans are
apart, or `e'` has stride 2 and `a .. b`, taken with stride 2 when `even` holds and
otherwise a single point, falls on its gaps. -/
def spanMisses (a b : Nat) (sparse : Bool) (e' : Nat × Nat × Nat × Int) : Bool :=
  Nat.blt b e'.1 || Nat.blt e'.2.1 a ||
    (e'.2.2.1 == 2 && sparse && (a + e'.1) % 2 == 1)

/-- The image `a .. b` of a case range consists of valid code points that are not
upper-case ASCII, not white space, and in no range of `ranges`. -/
def imageOk (ranges : List (Nat × Nat × Nat × Int)) (a b : Nat) (sparse : Bool) : Bool :=
  (Nat.blt b 0xd800 || (Nat.blt 0xdfff a && Nat.blt b 0x110000)) &&
    spanFree a b && (Nat.blt b 65 || Nat.blt 90 a) && ranges.all (spanMisses a b sparse)

/-- The check of one case range: it holds no white space, its image is not below zero,
and the image passes `imageOk`. -/
def entryOk (ranges : List (Nat × Nat × Nat × Int)) (e : Nat × Nat × Nat × Int) : Bool :=
  decide (0 ≤ (e.1 : Int) + e.2.2.2) && spanFree e.1 e.2.1 &&
    imageOk ranges ((e.1 : Int) + e.2.2.2).toNat ((e.2.1 : Int) + e.2.2.2).toNat
      (e.2.2.1 == 2 || e.1 == e.2.1)

/-- The secondary grid of the scenario with no match: one data row naming a person who
is not on the roster. -/
def unknownV2 : List (List String) :=
  [["Driver Name", "Supervisor Name"], ["Unknown Person", "X"]]

/-! ## The shape of a normalized text -/

/-- The function `normalize` with an arbitrary lower-casing of runes `lower` in the place
of `unicode.ToLower`: `normalize` is `normalizeWith toLowerRune`. -/
def normalizeWith (lower : Char → Char) (s : String) : String :=
  let s : String := ⟨(trimSpace s).data.map lower⟩
  let s := replaceAll s '\u00a0' ' '
  let s := replaceAll s '\n' ' '
  let s := replaceAll s '\r' ' '
  let s := join (fields s) " "
  s

/-- What the shape of a normalized text asks of a lower-casing of runes: it is
idempotent, it maps white space to white space and other runes to other runes, and it
fixes the ordinary space. -/
def LowerLaw (lower : Char → Char) : Prop :=
  (∀ c, lower (lower c) = lower c) ∧ (∀ c, isSpace (lower c) = isSpace c) ∧ lower ' ' = ' '

/-- What `normalizeWith lower` does to one rune after trimming: lower-casing, then the
three replacements by an ordinary space. -/
def cleanRune (lower : Char → Char) (c : Char) : Char :=
  let c := lower c
  let c := if c = '\u00a0' then ' ' else c
  let c := if c = '\n' then ' ' else c
  if c = '\r' then ' ' else c

/-- The non-empty pieces of a text between white-space runes: `fields` on lists. -/
def wordsOf (l : List Char) : List (List Char) :=
  (l.splitOnP isSpace).filter fun w => !w.isEmpty

/-- Words joined by single ordinary spaces: `join` with " " on lists. -/
def joinWords : List (List Char) → List Char
  | [] => []
  | w :: ws => w ++ (ws.map fun v => ' ' :: v).flatten

/-- A word of a normalized text: not empty and free of white space. -/
def goodWord (w : List Char) : Prop := w ≠ [] ∧ ∀ c ∈ w, isSpace c = false

/-! ## Applying the corrections to the secondary grid -/

/-- Modelled from the spec: the overwrite of the cell in column `col` of a row, which the
file layer performs for a correction (`SetCellValue`, not part of the core); a row that
is too short is first extended with empty cells. -/
def setCell (row : List String) (col : Nat) (value : String) : List String :=
  (row ++ List.replicate (col + 1 - row.length) "").set col value

/-- Modelled from the spec: one correction applied in place to the secondary grid; a
correction whose column index is negative or whose row lies outside the grid addresses
no cell and changes nothing. -/
def applyCorrection (grid : List (List String)) (c : Correction) : List (List String) :=
  if c.col < 0 then grid
  else
    match grid[c.row]? with
    | none => grid
    | some row => grid.set c.row (setCell row c.col.toNat c.value)

/-- Modelled from the spec: the Correction Set applied to the secondary grid, in order. -/
def applyCorrections (grid : List (List String)) (cs : List Correction) : List (List String) :=
  cs.foldl applyCorrection grid

/-- A secondary row after its correction, if it has one. -/
def correctedRow (v2Headers : GoMap Int) (driverMap : GoMap DriverInfo) (row : List String) :
    List String :=
  match matchRow v2Headers driverMap row with
  | none => row
  | some info =>
    if normalize (cell row (v2Headers.getOr "supervisor name" 0)) ≠ normalize info.ManagerName
    then setCell row (v2Headers.getOr "supervisor name" 0).toNat info.ManagerName
    else row

end SupeSync

namespace SupeSync

/-! ## The end-to-end scenario -/

/-- C1 as stated fails: on the two grids of the scenario the run does not yield the
expected Master List and Correction Set, it aborts with `StructuralAssertionError`. -/
theorem scenario_run_aborts :
    run scenarioAllops scenarioV2 = .error .StructuralAssertionError ∧
      run scenarioAllops scenarioV2 ≠ .ok (scenarioMaster, scenarioCorrections) := by
  decide

/-- C1 amended: on the grids of the scenario header detection succeeds on both grids at
row 0, and index build followed by reconcile on the detected headers yields the Master
List `[{C123, Jane, Doe, Bob Smith}]` and the Correction Set `[(1, 1, "Bob Smith")]`, but
the safety assertion rejects the authoritative header, so the run as a whole aborts; with
"Business Area" placed before "Manager - Name" in the authoritative grid the whole run
succeeds and yields that Master List and that Correction Set. -/
theorem scenario_end_to_end :
    findHeaderRow scenarioAllops allopsRequired
        = .ok (rowHeaders (scenarioAllops.getD 0 []), 0) ∧
      findHeaderRow scenarioV2 v2Required = .ok (rowHeaders (scenarioV2.getD 0 []), 0) ∧
      reconcile scenarioV2 (rowHeaders (scenarioV2.getD 0 [])) 0
          (buildIndex scenarioAllops (rowHeaders (scenarioAllops.getD 0 [])) 0)
        = (scenarioMaster, scenarioCorrections) ∧
      structuralCheck (rowHeaders (scenarioAllops.getD 0 []))
        = .error .StructuralAssertionError ∧
      run scenarioAllops scenarioV2 = .error .StructuralAssertionError ∧
      run scenarioAllopsSwapped scenarioV2 = .ok (scenarioMaster, scenarioCorrections) := by
  decide

/-! ## Go maps -/

@[simp] theorem GoMap.get?_empty {V : Type} (k : String) :
    (GoMap.empty : GoMap V).get? k = none := rfl

@[simp] theorem GoMap.get?_set {V : Type} (m : GoMap V) (k k' : String) (v : V) :
    (m.set k v).get? k' = if k = k' then some v else m.get? k' := rfl

theorem GoMap.getOr_set {V : Type} (m : GoMap V) (k k' : String) (v zero : V) :
    (m.set k v).getOr k' zero = if k = k' then v else m.getOr k' zero := by
  unfold GoMap.getOr
  rw [GoMap.get?_set]
  split <;> rfl

/-! ## The reconcile loop -/

theorem reconcileRow_eq (v2Headers : GoMap Int) (driverMap : GoMap DriverInfo)
    (st : ReconState) (i : Nat) (row : List String) :
    reconcileRow v2Headers driverMap st i row =
      match matchRow v2Headers driverMap row with
      | none => st
      | some info => correctSupervisor v2Headers (emitMaster st info) i row info := by
  unfold reconcileRow matchRow
  dsimp only
  generalize splitDriverName (cell row (v2Headers.getOr "driver name" 0)) = p
  obtain ⟨first, last⟩ := p
  by_cases hne : first = "" ∨ last = ""
  · simp [hne]
  · simp [hne]

@[simp] theorem correctSupervisor_master (v2Headers : GoMap Int) (st : ReconState) (i : Nat)
    (row : List String) (info : DriverInfo) :
    (correctSupervisor v2Headers st i row info).master = st.master := by
  by_cases h : normalize (cell row (v2Headers.getOr "supervisor name" 0))
      = normalize info.ManagerName <;> simp [correctSupervisor, h]

@[simp] theorem correctSupervisor_written (v2Headers : GoMap Int) (st : ReconState) (i : Nat)
    (row : List String) (info : DriverInfo) :
    (correctSupervisor v2Headers st i row info).written = st.written := by
  by_cases h : normalize (cell row (v2Headers.getOr "supervisor name" 0))
      = normalize info.ManagerName <;> simp [correctSupervisor, h]

theorem correctSupervisor_corrections (v2Headers : GoMap Int) (st : ReconState) (i : Nat)
    (row : List String) (info : DriverInfo) :
    (correctSupervisor v2Headers st i row info).corrections =
      st.corrections ++ expectedCorrection v2Headers i row info := by
  by_cases h : normalize (cell row (v2Headers.getOr "supervisor name" 0))
      = normalize info.ManagerName <;> simp [correctSupervisor, expectedCorrection, h]

@[simp] theorem emitMaster_corrections (st : ReconState) (info : DriverInfo) :
    (emitMaster st info).corrections = st.corrections := by
  unfold emitMaster
  split <;> rfl

theorem emitMaster_master (st : ReconState) (info : DriverInfo) :
    (emitMaster st info).master =
      if st.written.getOr info.ColleagueID false = false then st.master ++ [info.toMasterRow]
      else st.master := by
  unfold emitMaster
  cases h : st.written.getOr info.ColleagueID false <;> simp [DriverInfo.toMasterRow]

theorem emitMaster_written (st : ReconState) (info : DriverInfo) (k : String) :
    (emitMaster st info).written.getOr k false =
      (decide (info.ColleagueID = k) || st.written.getOr k false) := by
  unfold emitMaster
  cases h : st.written.getOr info.ColleagueID false
  · simp only [Bool.not_false, if_true, GoMap.getOr_set]
    by_cases hk : info.ColleagueID = k <;> simp [hk]
  · by_cases hk : info.ColleagueID = k
    · subst hk
      simp [h]
    · simp [hk]

/-- The Master List after the loop: what was there, then the first encounters among the
matched records whose identifier was not yet written. -/
theorem reconcileFrom_master (v2Headers : GoMap Int) (driverMap : GoMap DriverInfo)
    (rows : List (List String)) :
    ∀ (i : Nat) (st : ReconState),
      (reconcileFrom v2Headers driverMap rows i st).master =
        st.master ++
          ((firstEncounters (rows.filterMap (matchRow v2Headers driverMap))).filter
            fun r => st.written.getOr r.ColleagueID false = false).map
            DriverInfo.toMasterRow := by
  induction rows with
  | nil => intro i st; simp [reconcileFrom, firstEncounters]
  | cons row rows ih =>
    intro i st
    rw [reconcileFrom, ih, reconcileRow_eq]
    cases hm : matchRow v2Headers driverMap row with
    | none => simp [List.filterMap_cons, hm]
    | some info =>
      have key : ∀ l : List DriverInfo,
          l.filter (fun r => (emitMaster st info).written.getOr r.ColleagueID false = false) =
            (l.filter fun r' => r'.ColleagueID ≠ info.ColleagueID).filter
              fun r => st.written.getOr r.ColleagueID false = false := by
        intro l
        rw [List.filter_filter]
        apply List.filter_congr
        intro r _
        rw [emitMaster_written]
        by_cases hk : info.ColleagueID = r.ColleagueID
        · simp [hk]
        · have hk' : ¬ r.ColleagueID = info.ColleagueID := fun h => hk h.symm
          simp [hk, hk']
      simp only [List.filterMap_cons, hm, firstEncounters, correctSupervisor_master,
        correctSupervisor_written, emitMaster_master, key]
      cases hw : st.written.getOr info.ColleagueID false
      · simp [List.filter_cons, hw]
      · simp [List.filter_cons, hw]

/-- The Correction Set after the loop: what was there, then the corrections of the rows. -/
theorem reconcileFrom_corrections (v2Headers : GoMap Int) (driverMap : GoMap DriverInfo)
    (rows : List (List String)) :
    ∀ (i : Nat) (st : ReconState),
      (reconcileFrom v2Headers driverMap rows i st).corrections =
        st.corrections ++ correctionsFrom v2Headers driverMap rows i := by
  induction rows with
  | nil => intro i st; simp [reconcileFrom, correctionsFrom]
  | cons row rows ih =>
    intro i st
    rw [reconcileFrom, ih, reconcileRow_eq, correctionsFrom]
    cases hm : matchRow v2Headers driverMap row with
    | none => simp
    | some info => simp [correctSupervisor_corrections]

theorem firstEncounters_sublist (l : List DriverInfo) : (firstEncounters l).Sublist l := by
  induction l with
  | nil => exact List.Sublist.refl _
  | cons r rs ih =>
    exact ((List.filter_sublist _).trans ih).cons₂ r

theorem firstEncounters_nodup (l : List DriverInfo) :
    ((firstEncounters l).map (·.ColleagueID)).Nodup := by
  induction l with
  | nil => simp [firstEncounters]
  | cons r rs ih =>
    simp only [firstEncounters, List.map_cons, List.nodup_cons, List.mem_map, List.mem_filter]
    refine ⟨?_, (ih.sublist ((List.filter_sublist _).map _))⟩
    rintro ⟨r', ⟨_, hne⟩, heq⟩
    simp [heq] at hne

theorem reconcile_master (v2Rows : List (List String)) (v2Headers : GoMap Int)
    (v2HeaderRow : Nat) (driverMap : GoMap DriverInfo) :
    (reconcile v2Rows v2Headers v2HeaderRow driverMap).1 =
      (firstEncounters
        ((v2Rows.drop (v2HeaderRow + 1)).filterMap (matchRow v2Headers driverMap))).map
        DriverInfo.toMasterRow := by
  unfold reconcile
  simp only [reconcileFrom_master]
  simp [ReconState.init, GoMap.getOr]

/-- C3: for every secondary grid, header map, header row index and roster index, the
ColleagueID values of the rows of the Master List produced by the reconcile loop are
pairwise distinct. -/
theorem master_colleagueID_nodup (v2Rows : List (List String)) (v2Headers : GoMap Int)
    (v2HeaderRow : Nat) (driverMap : GoMap DriverInfo) :
    ((reconcile v2Rows v2Headers v2HeaderRow driverMap).1.map (·.ColleagueID)).Nodup := by
  rw [reconcile_master, List.map_map]
  exact firstEncounters_nodup _

/-- C4: the Master List is the sequence of roster records matched by the rows strictly
after the header row (split name with both parts non-empty, key in the index), in row
order, with only the first record of every ColleagueID kept, each written as
{ColleagueID, FirstName, LastName, ManagerName} of the record, unnormalized. -/
theorem master_list_first_encounters (v2Rows : List (List String)) (v2Headers : GoMap Int)
    (v2HeaderRow : Nat) (driverMap : GoMap DriverInfo) :
    (reconcile v2Rows v2Headers v2HeaderRow driverMap).1 =
      (firstEncounters
        ((v2Rows.drop (v2HeaderRow + 1)).filterMap (matchRow v2Headers driverMap))).map
        fun r => ⟨r.ColleagueID, r.FirstName, r.LastName, r.ManagerName⟩ := by
  exact reconcile_master v2Rows v2Headers v2HeaderRow driverMap

theorem expectedCorrection_row (v2Headers : GoMap Int) (i : Nat) (row : List String)
    (info : DriverInfo) : ∀ c ∈ expectedCorrection v2Headers i row info, c.row = i := by
  intro c hc
  unfold expectedCorrection at hc
  split at hc
  · simp only [List.mem_singleton] at hc
    rw [hc]
  · simp at hc

/-- The corrections that target grid row `i`, among those of the rows from `s` on. -/
theorem correctionsFrom_filter (v2Headers : GoMap Int) (driverMap : GoMap DriverInfo)
    (i : Nat) (rows : List (List String)) :
    ∀ s : Nat, s ≤ i →
      (correctionsFrom v2Headers driverMap rows s).filter (fun c => c.row = i) =
        match rows[i - s]? with
        | none => []
        | some row =>
          match matchRow v2Headers driverMap row with
          | none => []
          | some info => expectedCorrection v2Headers i row info := by
  induction rows with
  | nil => intro s _; simp [correctionsFrom]
  | cons row rows ih =>
    intro s hs
    rw [correctionsFrom, List.filter_append]
    have hrowOf : ∀ c ∈ (match matchRow v2Headers driverMap row with
        | none => []
        | some info => expectedCorrection v2Headers s row info), c.row = s := by
      intro c hc
      cases hm : matchRow v2Headers driverMap row with
      | none => simp [hm] at hc
      | some info =>
        rw [hm] at hc
        exact expectedCorrection_row v2Headers s row info c hc
    rcases Nat.eq_or_lt_of_le hs with heq | hlt
    · subst heq
      have hrest : ∀ t : Nat, s < t →
          ∀ l : List (List String),
            (correctionsFrom v2Headers driverMap l t).filter (fun c => c.row = s) = [] := by
        intro t ht l
        induction l generalizing t with
        | nil => simp [correctionsFrom]
        | cons r l ihl =>
          rw [correctionsFrom, List.filter_append, ihl (t + 1) (by omega), List.append_nil,
            List.filter_eq_nil_iff]
          intro c hc
          cases hm : matchRow v2Headers driverMap r with
          | none => simp [hm] at hc
          | some info =>
            rw [hm] at hc
            have := expectedCorrection_row v2Headers t r info c hc
            simp only [decide_eq_true_eq]
            omega
      rw [hrest (s + 1) (by omega), List.append_nil, List.filter_eq_self.2]
      · simp
      · intro c hc
        simpa using hrowOf c hc
    · have hnil : (List.filter (fun c => decide (c.row = i))
          (match matchRow v2Headers driverMap row with
            | none => []
            | some info => expectedCorrection v2Headers s row info)) = [] := by
        rw [List.filter_eq_nil_iff]
        intro c hc
        have := hrowOf c hc
        simp only [decide_eq_true_eq]
        omega
      rw [hnil, List.nil_append, ih (s + 1) (by omega)]
      have hidx : i - s = (i - (s + 1)) + 1 := by omega
      rw [hidx, List.getElem?_cons_succ]

/-- C5: for every secondary data row `i` strictly after the header row that is matched to
a roster record, the Correction Set holds a triple for row `i` exactly when the
normalized supervisor cell differs from the normalized manager name of the record, and
then exactly one, (i, supervisor column index, raw manager name); when the two
normalizations are equal it holds none for that row. -/
theorem supervisor_correction (v2Rows : List (List String)) (v2Headers : GoMap Int)
    (v2HeaderRow : Nat) (driverMap : GoMap DriverInfo) (i : Nat) (row : List String)
    (info : DriverInfo) (hi : v2HeaderRow < i) (hrow : v2Rows[i]? = some row)
    (hmatch : matchRow v2Headers driverMap row = some info) :
    (reconcile v2Rows v2Headers v2HeaderRow driverMap).2.filter (fun c => c.row = i) =
      if normalize (cell row (v2Headers.getOr "supervisor name" 0)) ≠ normalize info.ManagerName
      then [⟨i, v2Headers.getOr "supervisor name" 0, info.ManagerName⟩]
      else [] := by
  unfold reconcile
  simp only [reconcileFrom_corrections, ReconState.init, List.nil_append]
  rw [correctionsFrom_filter v2Headers driverMap i _ (v2HeaderRow + 1) (by omega),
    List.getElem?_drop]
  have hidx : v2HeaderRow + 1 + (i - (v2HeaderRow + 1)) = i := by omega
  rw [hidx, hrow]
  simp only [hmatch, expectedCorrection]

/-- A witness of C5: in the scenario, row 1 is matched to Jane Doe and is corrected once. -/
theorem supervisor_correction_witness :
    (reconcile scenarioV2 (rowHeaders (scenarioV2.getD 0 [])) 0
        (buildIndex scenarioAllops (rowHeaders (scenarioAllops.getD 0 [])) 0)).2.filter
        (fun c => c.row = 1) =
      if normalize (cell ["Doe, Jane", "Bob Jones"]
          ((rowHeaders (scenarioV2.getD 0 [])).getOr "supervisor name" 0)) ≠
        normalize (DriverInfo.mk "Jane" "Doe" "C123" "Bob Smith").ManagerName
      then [⟨1, (rowHeaders (scenarioV2.getD 0 [])).getOr "supervisor name" 0,
        (DriverInfo.mk "Jane" "Doe" "C123" "Bob Smith").ManagerName⟩]
      else [] :=
  supervisor_correction scenarioV2 (rowHeaders (scenarioV2.getD 0 [])) 0
    (buildIndex scenarioAllops (rowHeaders (scenarioAllops.getD 0 [])) 0) 1
    ["Doe, Jane", "Bob Jones"] ⟨"Jane", "Doe", "C123", "Bob Smith"⟩ (by decide) (by decide)
    (by decide)

/-! ## The roster index -/

theorem nameKey_data (first last : String) :
    (nameKey first last).data = (normalize first).data ++ '|' :: (normalize last).data := by
  simp [nameKey, String.data_append]

/-- A separator-free prefix before the first separator determines both halves. -/
theorem append_sep_inj_left {c : Char} :
    ∀ {a a' b b' : List Char}, a ++ c :: b = a' ++ c :: b' → c ∉ a → c ∉ a' →
      a = a' ∧ b = b'
  | [], [], _, _, h, _, _ => by simpa using h
  | [], x :: a', _, _, h, _, h' => by
    simp only [List.nil_append, List.cons_append, List.cons.injEq] at h
    exact absurd (by simp [h.1]) h'
  | x :: a, [], _, _, h, h', _ => by
    simp only [List.nil_append, List.cons_append, List.cons.injEq] at h
    exact absurd (by simp [h.1]) h'
  | x :: a, y :: a', b, b', h, ha, ha' => by
    simp only [List.cons_append, List.cons.injEq] at h
    have hrec := append_sep_inj_left h.2 (fun hc => ha (List.mem_cons_of_mem _ hc))
      (fun hc => ha' (List.mem_cons_of_mem _ hc))
    exact ⟨by rw [h.1, hrec.1], hrec.2⟩

/-- A separator-free suffix after the last separator determines both halves. -/
theorem append_sep_inj_right {c : Char} {a a' b b' : List Char}
    (h : a ++ c :: b = a' ++ c :: b') (hb : c ∉ b) (hb' : c ∉ b') : a = a' ∧ b = b' := by
  have hrev : b.reverse ++ c :: a.reverse = b'.reverse ++ c :: a'.reverse := by
    have := congrArg List.reverse h
    simpa using this
  have := append_sep_inj_left hrev (by simpa using hb) (by simpa using hb')
  exact ⟨List.reverse_injective this.2, List.reverse_injective this.1⟩

theorem indexRow_eq (allopsHeaders : GoMap Int) (driverMap : GoMap DriverInfo)
    (row : List String) :
    indexRow allopsHeaders driverMap row =
      if (readRecord allopsHeaders row).FirstName = "" ∨
          (readRecord allopsHeaders row).LastName = "" ∨
          (readRecord allopsHeaders row).ColleagueID = "" then driverMap
      else driverMap.set
        (nameKey (readRecord allopsHeaders row).FirstName (readRecord allopsHeaders row).LastName)
        (readRecord allopsHeaders row) := rfl

/-- Reading key `k` after one step of the index loop. -/
theorem indexRow_get? (allopsHeaders : GoMap Int) (driverMap : GoMap DriverInfo)
    (row : List String) (k : String) :
    (indexRow allopsHeaders driverMap row).get? k =
      (if qualifiesFor allopsHeaders k row then some (readRecord allopsHeaders row)
        else none).or (driverMap.get? k) := by
  rw [indexRow_eq]
  unfold qualifiesFor
  by_cases h1 : (readRecord allopsHeaders row).FirstName = ""
  · simp [h1]
  by_cases h2 : (readRecord allopsHeaders row).LastName = ""
  · simp [h2]
  by_cases h3 : (readRecord allopsHeaders row).ColleagueID = ""
  · simp [h3]
  by_cases h4 : nameKey (readRecord allopsHeaders row).FirstName
      (readRecord allopsHeaders row).LastName = k
  · simp [h1, h2, h3, h4]
  · simp [h1, h2, h3, h4]

/-- Reading key `k` after the index loop has run over `rows` from the map `driverMap`. -/
theorem foldl_indexRow_get? (allopsHeaders : GoMap Int) (k : String)
    (rows : List (List String)) :
    ∀ driverMap : GoMap DriverInfo,
      (rows.foldl (indexRow allopsHeaders) driverMap).get? k =
        ((rows.reverse.find? (qualifiesFor allopsHeaders k)).map
          (readRecord allopsHeaders)).or (driverMap.get? k) := by
  induction rows with
  | nil => intro driverMap; simp
  | cons row rows ih =>
    intro driverMap
    rw [List.foldl_cons, ih, indexRow_get?, List.reverse_cons, List.find?_append]
    cases hfind : rows.reverse.find? (qualifiesFor allopsHeaders k) with
    | some r => simp
    | none =>
      by_cases hq : qualifiesFor allopsHeaders k row = true
      · simp [hq]
      · simp [hq]

/-- Every binding of the roster index is keyed by the normalized names of its record. -/
theorem buildIndex_key (allopsRows : List (List String)) (allopsHeaders : GoMap Int)
    (allopsHeaderRow : Nat) (k : String) (info : DriverInfo)
    (h : (buildIndex allopsRows allopsHeaders allopsHeaderRow).get? k = some info) :
    k = nameKey info.FirstName info.LastName := by
  unfold buildIndex at h
  rw [foldl_indexRow_get?] at h
  simp only [GoMap.get?_empty, Option.or_none, Option.map_eq_some'] at h
  obtain ⟨row, hfind, hrec⟩ := h
  have hq := List.find?_some hfind
  unfold qualifiesFor at hq
  simp only [Bool.and_eq_true, decide_eq_true_eq] at hq
  rw [← hrec]
  exact hq.2.symm

/-- C6 as stated fails: a roster row with names ("a", "b|c") and a secondary row
"c, a|b", which splits into ("a|b", "c"), share the key "a|b|c"; the row is matched to
the record although the normalized first names and the normalized last names differ. -/
theorem separator_names_collide :
    findHeaderRow separatorAllops allopsRequired
        = .ok (rowHeaders (separatorAllops.getD 0 []), 0) ∧
      splitDriverName "c, a|b" = ("a|b", "c") ∧
      (buildIndex separatorAllops (rowHeaders (separatorAllops.getD 0 [])) 0).get?
          (nameKey "a|b" "c") = some ⟨"a", "b|c", "7", "m"⟩ ∧
      normalize "a|b" ≠ normalize (DriverInfo.mk "a" "b|c" "7" "m").FirstName ∧
      normalize "c" ≠ normalize (DriverInfo.mk "a" "b|c" "7" "m").LastName ∧
      run separatorAllops separatorV2 = .ok ([⟨"7", "a", "b|c", "m"⟩], []) := by
  decide

/-- C6 amended: whenever the lookup of normalize(f) + "|" + normalize(l) in the roster
index yields the record r, and the separator "|" occurs neither in normalize(f) nor in
normalize(r.FirstName), or neither in normalize(l) nor in normalize(r.LastName), then
normalize(f) = normalize(r.FirstName) and normalize(l) = normalize(r.LastName). -/
theorem match_by_normalized_names (allopsRows : List (List String))
    (allopsHeaders : GoMap Int) (allopsHeaderRow : Nat) (first last : String)
    (info : DriverInfo)
    (hmatch : (buildIndex allopsRows allopsHeaders allopsHeaderRow).get? (nameKey first last)
      = some info)
    (hsep : ('|' ∉ (normalize first).data ∧ '|' ∉ (normalize info.FirstName).data) ∨
      ('|' ∉ (normalize last).data ∧ '|' ∉ (normalize info.LastName).data)) :
    normalize first = normalize info.FirstName ∧ normalize last = normalize info.LastName := by
  have hkey := buildIndex_key allopsRows allopsHeaders allopsHeaderRow _ info hmatch
  have hdata := congrArg String.data hkey
  rw [nameKey_data, nameKey_data] at hdata
  have hboth : (normalize first).data = (normalize info.FirstName).data ∧
      (normalize last).data = (normalize info.LastName).data := by
    rcases hsep with ⟨h1, h2⟩ | ⟨h1, h2⟩
    · exact append_sep_inj_left hdata h1 h2
    · exact append_sep_inj_right hdata h1 h2
  exact ⟨String.ext hboth.1, String.ext hboth.2⟩

/-- A witness of C6 amended: "JANE" and " doe" are matched to the scenario's Jane Doe. -/
theorem match_by_normalized_names_witness :
    normalize "JANE" = normalize (DriverInfo.mk "Jane" "Doe" "C123" "Bob Smith").FirstName ∧
      normalize " doe" = normalize (DriverInfo.mk "Jane" "Doe" "C123" "Bob Smith").LastName :=
  match_by_normalized_names scenarioAllops (rowHeaders (scenarioAllops.getD 0 [])) 0
    "JANE" " doe" ⟨"Jane", "Doe", "C123", "Bob Smith"⟩ (by decide) (Or.inl (by decide))

/-- The last element of a list that satisfies `p`, by position. -/
theorem find?_reverse_eq_some {α : Type} (p : α → Bool) (l : List α) :
    ∀ x : α, l.reverse.find? p = some x ↔
      ∃ i : Nat, l[i]? = some x ∧ p x = true ∧
        ∀ (j : Nat) (y : α), i < j → l[j]? = some y → p y = false := by
  induction l with
  | nil => intro x; simp
  | cons a l ih =>
    intro x
    rw [List.reverse_cons, List.find?_append]
    constructor
    · intro h
      cases hl : l.reverse.find? p with
      | some z =>
        rw [hl] at h
        simp only [Option.or, Option.some.injEq] at h
        subst h
        obtain ⟨i, hi, hp, hlater⟩ := (ih z).1 hl
        refine ⟨i + 1, by simpa using hi, hp, ?_⟩
        intro j y hj hy
        cases j with
        | zero => omega
        | succ j => exact hlater j y (by omega) (by simpa using hy)
      | none =>
        rw [hl] at h
        simp only [Option.or, List.find?_cons, List.find?_nil] at h
        cases hpa : p a with
        | false => simp [hpa] at h
        | true =>
          simp only [hpa, Option.some.injEq] at h
          subst h
          refine ⟨0, by simp, hpa, ?_⟩
          intro j y hj hy
          cases j with
          | zero => omega
          | succ j =>
            have hmem : y ∈ l.reverse := by
              rw [List.mem_reverse]
              exact List.getElem?_mem (by simpa using hy)
            have := List.find?_eq_none.1 hl y hmem
            simpa using this
    · rintro ⟨i, hi, hp, hlater⟩
      cases i with
      | zero =>
        simp only [List.getElem?_cons_zero, Option.some.injEq] at hi
        subst hi
        have hl : l.reverse.find? p = none := by
          rw [List.find?_eq_none]
          intro y hy
          rw [List.mem_reverse, List.mem_iff_getElem?] at hy
          obtain ⟨j, hj⟩ := hy
          have := hlater (j + 1) y (by omega) (by simpa using hj)
          simp [this]
        simp [hl, hp]
      | succ i =>
        have := (ih x).2 ⟨i, by simpa using hi, hp, fun j y hj hy =>
          hlater (j + 1) y (by omega) (by simpa using hy)⟩
        simp [this]

/-- Reading key `k` in the roster index: the last qualifying row after the header row. -/
theorem buildIndex_get? (allopsRows : List (List String)) (allopsHeaders : GoMap Int)
    (allopsHeaderRow : Nat) (k : String) :
    (buildIndex allopsRows allopsHeaders allopsHeaderRow).get? k =
      (((allopsRows.drop (allopsHeaderRow + 1)).reverse.find?
        (qualifiesFor allopsHeaders k))).map (readRecord allopsHeaders) := by
  unfold buildIndex
  rw [foldl_indexRow_get?]
  simp

/-- Reading key `k` in the roster index, by row position: the last row after the header
row that qualifies for `k`, and nothing when no row qualifies. -/
theorem buildIndex_get?_iff (allopsRows : List (List String)) (allopsHeaders : GoMap Int)
    (allopsHeaderRow : Nat) (k : String) :
    (∀ info : DriverInfo,
      (buildIndex allopsRows allopsHeaders allopsHeaderRow).get? k = some info ↔
        ∃ (i : Nat) (row : List String), allopsHeaderRow < i ∧ allopsRows[i]? = some row ∧
          qualifiesFor allopsHeaders k row = true ∧ readRecord allopsHeaders row = info ∧
          ∀ (j : Nat) (row' : List String), i < j → allopsRows[j]? = some row' →
            qualifiesFor allopsHeaders k row' = false) ∧
      ((buildIndex allopsRows allopsHeaders allopsHeaderRow).get? k = none ↔
        ∀ (i : Nat) (row : List String), allopsHeaderRow < i → allopsRows[i]? = some row →
          qualifiesFor allopsHeaders k row = false) := by
  rw [buildIndex_get?]
  constructor
  · intro info
    rw [Option.map_eq_some']
    constructor
    · rintro ⟨row, hfind, hrec⟩
      obtain ⟨n, hn, hq, hlater⟩ := (find?_reverse_eq_some _ _ row).1 hfind
      rw [List.getElem?_drop] at hn
      refine ⟨allopsHeaderRow + 1 + n, row, by omega, hn, hq, hrec, ?_⟩
      intro j row' hj hrow'
      refine hlater (j - (allopsHeaderRow + 1)) row' (by omega) ?_
      rw [List.getElem?_drop]
      have hidx : allopsHeaderRow + 1 + (j - (allopsHeaderRow + 1)) = j := by omega
      rw [hidx]
      exact hrow'
    · rintro ⟨i, row, hi, hrow, hq, hrec, hlater⟩
      refine ⟨row, ?_, hrec⟩
      refine (find?_reverse_eq_some _ _ row).2 ⟨i - (allopsHeaderRow + 1), ?_, hq, ?_⟩
      · rw [List.getElem?_drop]
        have hidx : allopsHeaderRow + 1 + (i - (allopsHeaderRow + 1)) = i := by omega
        rw [hidx]
        exact hrow
      · intro j row' hj hrow'
        rw [List.getElem?_drop] at hrow'
        exact hlater (allopsHeaderRow + 1 + j) row' (by omega) hrow'
  · rw [Option.map_eq_none', List.find?_eq_none]
    constructor
    · intro h i row hi hrow
      have hmem : row ∈ (allopsRows.drop (allopsHeaderRow + 1)).reverse := by
        rw [List.mem_reverse, List.mem_iff_getElem?]
        refine ⟨i - (allopsHeaderRow + 1), ?_⟩
        rw [List.getElem?_drop]
        have hidx : allopsHeaderRow + 1 + (i - (allopsHeaderRow + 1)) = i := by omega
        rw [hidx]
        exact hrow
      simpa using h row hmem
    · intro h row hmem
      rw [List.mem_reverse, List.mem_iff_getElem?] at hmem
      obtain ⟨n, hn⟩ := hmem
      rw [List.getElem?_drop] at hn
      simp [h (allopsHeaderRow + 1 + n) row (by omega) hn]

theorem qualifiesFor_iff (allopsHeaders : GoMap Int) (k : String) (row : List String) :
    qualifiesFor allopsHeaders k row = true ↔
      cell row (allopsHeaders.getOr "preferred first name" 0) ≠ "" ∧
        cell row (allopsHeaders.getOr "legal last name" 0) ≠ "" ∧
        cell row (allopsHeaders.getOr "colleague id" 0) ≠ "" ∧
        normalize (cell row (allopsHeaders.getOr "preferred first name" 0)) ++ "|" ++
          normalize (cell row (allopsHeaders.getOr "legal last name" 0)) = k := by
  simp only [qualifiesFor, readRecord, nameKey, Bool.and_eq_true, decide_eq_true_eq, and_assoc]

/-- C7: for every authoritative grid, header map, header row index h and key k, the
roster index maps k to the record {first, last, id, manager} read from the last row
i > h whose trimmed first-name, last-name and identifier cells are all non-empty and for
which normalize(first) + "|" + normalize(last) = k, and k is absent exactly when there is
no such row after row h. -/
theorem roster_index_last_wins (allopsRows : List (List String)) (allopsHeaders : GoMap Int)
    (allopsHeaderRow : Nat) (k : String) :
    (∀ info : DriverInfo,
      (buildIndex allopsRows allopsHeaders allopsHeaderRow).get? k = some info ↔
        ∃ (i : Nat) (row : List String) (first last id manager : String),
          allopsHeaderRow < i ∧ allopsRows[i]? = some row ∧
          first = cell row (allopsHeaders.getOr "preferred first name" 0) ∧
          last = cell row (allopsHeaders.getOr "legal last name" 0) ∧
          id = cell row (allopsHeaders.getOr "colleague id" 0) ∧
          manager = cell row (allopsHeaders.getOr "manager - name" 0) ∧
          first ≠ "" ∧ last ≠ "" ∧ id ≠ "" ∧
          normalize first ++ "|" ++ normalize last = k ∧
          info = { FirstName := first, LastName := last, ColleagueID := id,
                   ManagerName := manager } ∧
          ∀ (j : Nat) (row' : List String), i < j → allopsRows[j]? = some row' →
            ¬ (cell row' (allopsHeaders.getOr "preferred first name" 0) ≠ "" ∧
              cell row' (allopsHeaders.getOr "legal last name" 0) ≠ "" ∧
              cell row' (allopsHeaders.getOr "colleague id" 0) ≠ "" ∧
              normalize (cell row' (allopsHeaders.getOr "preferred first name" 0)) ++ "|" ++
                normalize (cell row' (allopsHeaders.getOr "legal last name" 0)) = k)) ∧
      ((buildIndex allopsRows allopsHeaders allopsHeaderRow).get? k = none ↔
        ∀ (i : Nat) (row : List String), allopsHeaderRow < i → allopsRows[i]? = some row →
          ¬ (cell row (allopsHeaders.getOr "preferred first name" 0) ≠ "" ∧
            cell row (allopsHeaders.getOr "legal last name" 0) ≠ "" ∧
            cell row (allopsHeaders.getOr "colleague id" 0) ≠ "" ∧
            normalize (cell row (allopsHeaders.getOr "preferred first name" 0)) ++ "|" ++
              normalize (cell row (allopsHeaders.getOr "legal last name" 0)) = k)) := by
  have hfalse : ∀ row : List String, qualifiesFor allopsHeaders k row = false ↔
      ¬ (cell row (allopsHeaders.getOr "preferred first name" 0) ≠ "" ∧
        cell row (allopsHeaders.getOr "legal last name" 0) ≠ "" ∧
        cell row (allopsHeaders.getOr "colleague id" 0) ≠ "" ∧
        normalize (cell row (allopsHeaders.getOr "preferred first name" 0)) ++ "|" ++
          normalize (cell row (allopsHeaders.getOr "legal last name" 0)) = k) := by
    intro row
    rw [← qualifiesFor_iff, Bool.not_eq_true]
  obtain ⟨hsome, hnone⟩ := buildIndex_get?_iff allopsRows allopsHeaders allopsHeaderRow k
  constructor
  · intro info
    rw [hsome info]
    constructor
    · rintro ⟨i, row, hi, hrow, hq, hrec, hlater⟩
      have hq' := (qualifiesFor_iff allopsHeaders k row).1 hq
      exact ⟨i, row, _, _, _, _, hi, hrow, rfl, rfl, rfl, rfl, hq'.1, hq'.2.1, hq'.2.2.1,
        hq'.2.2.2, hrec.symm, fun j row' hj hrow' => (hfalse row').1 (hlater j row' hj hrow')⟩
    · rintro ⟨i, row, first, last, id, manager, hi, hrow, rfl, rfl, rfl, rfl, h1, h2, h3, h4,
        hrec, hlater⟩
      exact ⟨i, row, hi, hrow, (qualifiesFor_iff allopsHeaders k row).2 ⟨h1, h2, h3, h4⟩,
        hrec.symm, fun j row' hj hrow' => (hfalse row').2 (hlater j row' hj hrow')⟩
  · rw [hnone]
    constructor
    · intro h i row hi hrow
      exact (hfalse row).1 (h i row hi hrow)
    · intro h i row hi hrow
      exact (hfalse row).2 (h i row hi hrow)

/-! ## Header detection -/

/-- Whether key `k` is bound after the inner loop of `findHeaderRow`. -/
theorem rowHeadersFrom_isSome (k : String) (vs : List String) :
    ∀ (cIdx : Nat) (headers : GoMap Int),
      ((rowHeadersFrom vs cIdx headers).get? k).isSome = true ↔
        (k ≠ "" ∧ ∃ v ∈ vs, normalize v = k) ∨ (headers.get? k).isSome = true := by
  induction vs with
  | nil => intro cIdx headers; simp [rowHeadersFrom]
  | cons v vs ih =>
    intro cIdx headers
    rw [rowHeadersFrom]
    simp only [ih, List.mem_cons, exists_eq_or_imp]
    by_cases hn : normalize v = ""
    · simp only [hn, ne_eq, not_true_eq_false, if_false]
      constructor
      · rintro (⟨hk, v', hv', hv'k⟩ | h)
        · exact Or.inl ⟨hk, Or.inr ⟨v', hv', hv'k⟩⟩
        · exact Or.inr h
      · rintro (⟨hk, h | ⟨v', hv', hv'k⟩⟩ | h)
        · exact absurd h.symm hk
        · exact Or.inl ⟨hk, v', hv', hv'k⟩
        · exact Or.inr h
    · simp only [ne_eq, hn, not_false_eq_true, if_true, GoMap.get?_set]
      by_cases hk : normalize v = k
      · subst hk
        simp [hn]
      · simp only [hk, if_false, false_or]

theorem rowHeaders_isSome (row : List String) (k : String) :
    ((rowHeaders row).get? k).isSome = true ↔ k ≠ "" ∧ ∃ v ∈ row, normalize v = k := by
  unfold rowHeaders
  rw [rowHeadersFrom_isSome]
  simp

/-- Reading key `k` after the inner loop of `findHeaderRow`: the last cell, from column
`cIdx` on, whose non-empty normalized text is `k`. -/
theorem rowHeadersFrom_get? (k : String) (vs : List String) :
    ∀ (cIdx : Nat) (headers : GoMap Int),
      (rowHeadersFrom vs cIdx headers).get? k =
        (((vs.enumFrom cIdx).reverse.find?
          (fun e => decide (normalize e.2 = k) && decide (k ≠ ""))).map
          (fun e => (e.1 : Int))).or (headers.get? k) := by
  induction vs with
  | nil => intro cIdx headers; simp [rowHeadersFrom]
  | cons v vs ih =>
    intro cIdx headers
    rw [rowHeadersFrom, ih, List.enumFrom_cons, List.reverse_cons, List.find?_append]
    cases hfind : (vs.enumFrom (cIdx + 1)).reverse.find?
        (fun e => decide (normalize e.2 = k) && decide (k ≠ "")) with
    | some e => simp
    | none =>
      by_cases hn : normalize v = ""
      · by_cases hk : normalize v = k
        · have hk' : k = "" := by rw [← hk, hn]
          simp [hn, hk']
        · rw [hn] at hk
          simp [hn, hk]
      · by_cases hk : normalize v = k
        · have hk' : ¬ k = "" := by rw [← hk]; exact hn
          simp [hn, hk, hk']
        · simp [hn, hk]

/-- The column that a header map built from `row` gives to the key `k`. -/
theorem rowHeaders_get?_eq_some (row : List String) (k : String) (c : Int) :
    (rowHeaders row).get? k = some c ↔
      k ≠ "" ∧ ∃ n : Nat, c = (n : Int) ∧ (∃ v, row[n]? = some v ∧ normalize v = k) ∧
        ∀ (n' : Nat) (v' : String), n < n' → row[n']? = some v' → normalize v' ≠ k := by
  unfold rowHeaders
  rw [rowHeadersFrom_get?]
  simp only [GoMap.get?_empty, Option.or_none, Option.map_eq_some']
  constructor
  · rintro ⟨e, hfind, hc⟩
    obtain ⟨n, hn, hp, hlater⟩ := (find?_reverse_eq_some _ _ e).1 hfind
    simp only [Bool.and_eq_true, decide_eq_true_eq] at hp
    rw [List.getElem?_enumFrom] at hn
    cases hv : row[n]? with
    | none => simp [hv] at hn
    | some v =>
      simp only [hv, Option.map_some', Option.some.injEq] at hn
      subst hn
      refine ⟨hp.2, n, by simpa using hc.symm, ⟨v, hv, hp.1⟩, ?_⟩
      intro n' v' hn' hv' hk
      have := hlater n' (0 + n', v') hn' (by rw [List.getElem?_enumFrom, hv']; rfl)
      simp [hk, hp.2] at this
  · rintro ⟨hk, n, hc, ⟨v, hv, hvk⟩, hlater⟩
    refine ⟨(0 + n, v), ?_, by simpa using hc.symm⟩
    refine (find?_reverse_eq_some _ _ _).2 ⟨n, ?_, by simp [hvk, hk], ?_⟩
    · rw [List.getElem?_enumFrom, hv]; rfl
    · intro j e hj he
      rw [List.getElem?_enumFrom] at he
      cases hv' : row[j]? with
      | none => simp [hv'] at he
      | some v' =>
        simp only [hv', Option.map_some', Option.some.injEq] at he
        subst he
        simp [hlater j v' hj hv']

theorem matched_iff (row required : List String) :
    matched (rowHeaders row) required = true ↔ rowQualifies required row := by
  unfold matched rowQualifies
  simp only [List.all_eq_true, rowHeaders_isSome]
  constructor
  · intro h req hreq
    obtain ⟨hne, v, hv, hvk⟩ := h req hreq
    exact ⟨v, hv, by rw [hvk]; exact hne, hvk⟩
  · intro h req hreq
    obtain ⟨v, hv, hne, hvk⟩ := h req hreq
    exact ⟨by rw [← hvk]; exact hne, v, hv, hvk⟩

/-- Success of the outer loop of `findHeaderRow`: the first row that qualifies. -/
theorem findHeaderRowFrom_eq_ok (required : List String) (rows : List (List String)) :
    ∀ (rIdx : Nat) (headers : GoMap Int) (r : Nat),
      findHeaderRowFrom rows rIdx required = .ok (headers, r) ↔
        ∃ (i : Nat) (row : List String), r = rIdx + i ∧ rows[i]? = some row ∧
          headers = rowHeaders row ∧ rowQualifies required row ∧
          ∀ (j : Nat) (row' : List String), j < i → rows[j]? = some row' →
            ¬ rowQualifies required row' := by
  induction rows with
  | nil => intro rIdx headers r; simp [findHeaderRowFrom]
  | cons row rows ih =>
    intro rIdx headers r
    rw [findHeaderRowFrom]
    by_cases hm : matched (rowHeaders row) required = true
    · simp only [hm, if_true, Except.ok.injEq, Prod.mk.injEq]
      constructor
      · rintro ⟨h1, h2⟩
        refine ⟨0, row, by omega, by simp, h1.symm, (matched_iff _ _).1 hm, ?_⟩
        intro j row' hj
        omega
      · rintro ⟨i, row', hr, hrow', hh, hq, hearlier⟩
        cases i with
        | zero =>
          simp only [List.getElem?_cons_zero, Option.some.injEq] at hrow'
          subst hrow'
          exact ⟨hh.symm, by omega⟩
        | succ i =>
          exact absurd ((matched_iff _ _).1 hm) (hearlier 0 row (by omega) (by simp))
    · simp only [hm, Bool.false_eq_true, if_false, ih]
      have hnq : ¬ rowQualifies required row := fun h => hm ((matched_iff _ _).2 h)
      constructor
      · rintro ⟨i, row', hr, hrow', hh, hq, hearlier⟩
        refine ⟨i + 1, row', by omega, by simpa using hrow', hh, hq, ?_⟩
        intro j row'' hj hrow''
        cases j with
        | zero =>
          simp only [List.getElem?_cons_zero, Option.some.injEq] at hrow''
          subst hrow''
          exact hnq
        | succ j => exact hearlier j row'' (by omega) (by simpa using hrow'')
      · rintro ⟨i, row', hr, hrow', hh, hq, hearlier⟩
        cases i with
        | zero =>
          simp only [List.getElem?_cons_zero, Option.some.injEq] at hrow'
          subst hrow'
          exact absurd hq hnq
        | succ i =>
          refine ⟨i, row', by omega, by simpa using hrow', hh, hq, ?_⟩
          intro j row'' hj hrow''
          exact hearlier (j + 1) row'' (by omega) (by simpa using hrow'')

/-- Failure of the outer loop of `findHeaderRow`: no row qualifies. -/
theorem findHeaderRowFrom_eq_error (required : List String) (rows : List (List String)) :
    ∀ (rIdx : Nat) (e : RunError),
      findHeaderRowFrom rows rIdx required = .error e ↔
        e = .HeaderNotFound ∧ ∀ row ∈ rows, ¬ rowQualifies required row := by
  induction rows with
  | nil =>
    intro rIdx e
    simp only [findHeaderRowFrom, Except.error.injEq, List.not_mem_nil, false_imp_iff,
      implies_true, and_true]
    exact eq_comm
  | cons row rows ih =>
    intro rIdx e
    rw [findHeaderRowFrom]
    by_cases hm : matched (rowHeaders row) required = true
    · have hq := (matched_iff _ _).1 hm
      simp only [hm, if_true, List.mem_cons, forall_eq_or_imp]
      constructor
      · intro h
        cases h
      · rintro ⟨_, h, _⟩
        exact absurd hq h
    · have hnq : ¬ rowQualifies required row := fun h => hm ((matched_iff _ _).2 h)
      simp only [hm, Bool.false_eq_true, if_false, ih, List.mem_cons, forall_eq_or_imp, hnq,
        not_false_eq_true, true_and]

theorem findHeaderRow_error (rows : List (List String)) (required : List String)
    (e : RunError) (h : findHeaderRow rows required = .error e) : e = .HeaderNotFound :=
  ((findHeaderRowFrom_eq_error required rows 0 e).1 h).1

/-- C8: if `findHeaderRow` succeeds with row index r, then every required label, after
normalization, is a key of the returned map and is the normalization of some cell of
row r, and no row with index less than r contains all required normalized labels. -/
theorem findHeaderRow_first_qualifying (rows : List (List String)) (required : List String)
    (headers : GoMap Int) (r : Nat) (h : findHeaderRow rows required = .ok (headers, r)) :
    (∃ row, rows[r]? = some row ∧
      ∀ req ∈ required, (headers.get? (normalize req)).isSome = true ∧
        ∃ v ∈ row, normalize v = normalize req) ∧
      ∀ (j : Nat) (row' : List String), j < r → rows[j]? = some row' →
        ¬ ∀ req ∈ required, ∃ v ∈ row', normalize v = normalize req := by
  obtain ⟨i, row, hr, hrow, hh, hq, hearlier⟩ :=
    (findHeaderRowFrom_eq_ok required rows 0 headers r).1 h
  have hri : r = i := by omega
  subst hri
  subst hh
  refine ⟨⟨row, hrow, ?_⟩, ?_⟩
  · intro req hreq
    obtain ⟨v, hv, hne, hvk⟩ := hq req hreq
    exact ⟨(rowHeaders_isSome row _).2 ⟨by rw [← hvk]; exact hne, v, hv, hvk⟩, v, hv, hvk⟩
  · intro j row' hj hrow' hall
    apply hearlier j row' hj hrow'
    intro req hreq
    obtain ⟨v, hv, hvk⟩ := hall req hreq
    obtain ⟨v0, _, hne0, hv0k⟩ := hq req hreq
    exact ⟨v, hv, by rw [hvk, ← hv0k]; exact hne0, hvk⟩

/-- A witness of C8: a banner row followed by the header row of the secondary grid. -/
theorem findHeaderRow_first_qualifying_witness :
    (∃ row, ([["Overlooked and Returned"], ["Driver Name", "Supervisor Name"]] :
        List (List String))[1]? = some row ∧
      ∀ req ∈ v2Required,
        ((rowHeaders ["Driver Name", "Supervisor Name"]).get? (normalize req)).isSome = true ∧
          ∃ v ∈ row, normalize v = normalize req) ∧
      ∀ (j : Nat) (row' : List String), j < 1 →
        ([["Overlooked and Returned"], ["Driver Name", "Supervisor Name"]] :
          List (List String))[j]? = some row' →
        ¬ ∀ req ∈ v2Required, ∃ v ∈ row', normalize v = normalize req :=
  findHeaderRow_first_qualifying [["Overlooked and Returned"], ["Driver Name", "Supervisor Name"]]
    v2Required (rowHeaders ["Driver Name", "Supervisor Name"]) 1 (by decide)

/-- C9: `findHeaderRow` fails with `HeaderNotFound` if and only if no row of the grid
contains, among the normalizations of its non-empty cells (the cells whose normalized
text is non-empty, which is the test the code applies), every normalized required label;
in particular it fails on an empty grid and succeeds when some row qualifies. -/
theorem findHeaderRow_fails_iff (rows : List (List String)) (required : List String) :
    (findHeaderRow rows required = .error .HeaderNotFound ↔
        ¬ ∃ row ∈ rows, ∀ req ∈ required,
          ∃ v ∈ row, normalize v ≠ "" ∧ normalize v = normalize req) ∧
      findHeaderRow [] required = .error .HeaderNotFound ∧
      ((∃ row ∈ rows, ∀ req ∈ required,
          ∃ v ∈ row, normalize v ≠ "" ∧ normalize v = normalize req) ↔
        ∃ (headers : GoMap Int) (r : Nat), findHeaderRow rows required = .ok (headers, r)) := by
  have hfail : findHeaderRow rows required = .error .HeaderNotFound ↔
      ¬ ∃ row ∈ rows, rowQualifies required row := by
    unfold findHeaderRow
    rw [findHeaderRowFrom_eq_error]
    simp
  refine ⟨hfail, rfl, ?_⟩
  constructor
  · intro hex
    cases hres : findHeaderRow rows required with
    | error e =>
      have he := findHeaderRow_error rows required e hres
      subst he
      exact absurd hex (hfail.1 hres)
    | ok p => exact ⟨p.1, p.2, rfl⟩
  · rintro ⟨headers, r, hok⟩
    by_contra hno
    rw [hfail.2 hno] at hok
    cases hok

/-- C10: when `findHeaderRow` succeeds with row r, the keys of the returned map are
exactly the non-empty normalizations of the cells of row r, and each key k is mapped to
the greatest column index c of row r with normalize(row[c]) = k. -/
theorem header_map_last_occurrence (rows : List (List String)) (required : List String)
    (headers : GoMap Int) (r : Nat) (h : findHeaderRow rows required = .ok (headers, r)) :
    ∃ row, rows[r]? = some row ∧
      (∀ k : String, (headers.get? k).isSome = true ↔ k ≠ "" ∧ ∃ v ∈ row, normalize v = k) ∧
      ∀ (k : String) (c : Int), headers.get? k = some c ↔
        k ≠ "" ∧ ∃ n : Nat, c = (n : Int) ∧ (∃ v, row[n]? = some v ∧ normalize v = k) ∧
          ∀ (n' : Nat) (v' : String), n < n' → row[n']? = some v' → normalize v' ≠ k := by
  obtain ⟨i, row, hr, hrow, hh, _, _⟩ :=
    (findHeaderRowFrom_eq_ok required rows 0 headers r).1 h
  have hri : r = i := by omega
  subst hri
  subst hh
  exact ⟨row, hrow, rowHeaders_isSome row, rowHeaders_get?_eq_some row⟩

/-- A witness of C10: a header row in which the label "Driver Name" occurs twice. -/
theorem header_map_last_occurrence_witness :
    ∃ row, ([["Driver Name", "Supervisor Name", "driver  name"]] : List (List String))[0]?
        = some row ∧
      (∀ k : String,
        ((rowHeaders ["Driver Name", "Supervisor Name", "driver  name"]).get? k).isSome = true ↔
          k ≠ "" ∧ ∃ v ∈ row, normalize v = k) ∧
      ∀ (k : String) (c : Int),
        (rowHeaders ["Driver Name", "Supervisor Name", "driver  name"]).get? k = some c ↔
          k ≠ "" ∧ ∃ n : Nat, c = (n : Int) ∧ (∃ v, row[n]? = some v ∧ normalize v = k) ∧
            ∀ (n' : Nat) (v' : String), n < n' → row[n']? = some v' → normalize v' ≠ k :=
  header_map_last_occurrence [["Driver Name", "Supervisor Name", "driver  name"]] v2Required
    (rowHeaders ["Driver Name", "Supervisor Name", "driver  name"]) 0 (by decide)

/-! ## The safety assertion -/

/-- C2 as stated fails: a header map that resolves "manager - name" to column 3 and
"business area" to column 4 satisfies "manager strictly before area" and is rejected. -/
theorem structuralCheck_rejects_manager_first :
    managerBeforeArea.getOr "manager - name" 0 < managerBeforeArea.getOr "business area" 0 ∧
      structuralCheck managerBeforeArea = .error .StructuralAssertionError := by
  decide

/-- C2 amended: the safety assertion passes exactly when the column index of
"business area" is strictly less than that of "manager - name", and for every header map
in which the index of "manager - name" is less than or equal to that of "business area"
it fails with `StructuralAssertionError` (an absent label reads as index 0); the run
aborts with `StructuralAssertionError` exactly when header detection succeeds on the
authoritative grid with such a map. -/
theorem structuralCheck_iff (allopsHeaders : GoMap Int) :
    (structuralCheck allopsHeaders = .ok () ↔
        allopsHeaders.getOr "business area" 0 < allopsHeaders.getOr "manager - name" 0) ∧
      (structuralCheck allopsHeaders = .error .StructuralAssertionError ↔
        allopsHeaders.getOr "manager - name" 0 ≤ allopsHeaders.getOr "business area" 0) ∧
      ∀ allopsRows v2Rows : List (List String),
        run allopsRows v2Rows = .error .StructuralAssertionError ↔
          ∃ (headers : GoMap Int) (r : Nat),
            findHeaderRow allopsRows allopsRequired = .ok (headers, r) ∧
              headers.getOr "manager - name" 0 ≤ headers.getOr "business area" 0 := by
  refine ⟨?_, ?_, ?_⟩
  · unfold structuralCheck
    by_cases h : allopsHeaders.getOr "manager - name" 0 ≤ allopsHeaders.getOr "business area" 0
    · simp [h]
    · simp [h]
      omega
  · unfold structuralCheck
    by_cases h : allopsHeaders.getOr "manager - name" 0 ≤ allopsHeaders.getOr "business area" 0
    · simp [h]
    · simp [h]
  · intro allopsRows v2Rows
    unfold run
    cases h1 : findHeaderRow allopsRows allopsRequired with
    | error e =>
      have he := findHeaderRow_error _ _ e h1
      subst he
      simp
    | ok p =>
      obtain ⟨headers, r⟩ := p
      simp only [Except.ok.injEq, Prod.mk.injEq, exists_and_left, exists_eq_left',
        exists_eq_right_right']
      unfold structuralCheck
      by_cases h : headers.getOr "manager - name" 0 ≤ headers.getOr "business area" 0
      · simp [h]
      · simp only [h, if_false, iff_false]
        cases h2 : findHeaderRow v2Rows v2Required with
        | error e =>
          have he := findHeaderRow_error _ _ e h2
          subst he
          simp
          omega
        | ok q =>
          simp
          omega

/-! ## Lower-casing of runes -/

theorem lowerRanges_ok : lowerRanges.all (entryOk lowerRanges) = true := by
  decide!


theorem spanFree_sound (a b n : Nat) (h : spanFree a b = true) (h1 : a ≤ n) (h2 : n ≤ b) :
    isSpaceNat n = false := by
  unfold spanFree spaceSpans at h
  simp only [List.all_cons, List.all_nil, Bool.and_true, Bool.and_eq_true, Bool.or_eq_true,
    Nat.blt_eq] at h
  unfold isSpaceNat
  simp only [Bool.or_eq_false_iff, Bool.and_eq_false_iff, beq_eq_false_iff_ne, ne_eq,
    decide_eq_false_iff_not]
  omega

theorem spanMisses_sound (a b : Nat) (sparse : Bool) (e' : Nat × Nat × Nat × Int)
    (h : spanMisses a b sparse e' = true) (m : Nat) (h1 : a ≤ m) (h2 : m ≤ b)
    (h3 : sparse = true → (m - a) % 2 = 0) :
    ¬ (e'.1 ≤ m ∧ m ≤ e'.2.1 ∧ (m - e'.1) % e'.2.2.1 = 0) := by
  unfold spanMisses at h
  simp only [Bool.or_eq_true, Bool.and_eq_true, Nat.blt_eq, beq_iff_eq] at h
  rintro ⟨h4, h5, h6⟩
  rcases h with (h | h) | ⟨⟨hs, hsp⟩, hpar⟩
  · omega
  · omega
  · have := h3 hsp
    rw [hs] at h6
    omega

theorem caseDelta_cases (n : Nat) :
    ∀ ranges : List (Nat × Nat × Nat × Int),
      caseDelta n ranges = 0 ∨
        ∃ e ∈ ranges, e.1 ≤ n ∧ n ≤ e.2.1 ∧ (n - e.1) % e.2.2.1 = 0 ∧
          caseDelta n ranges = e.2.2.2 := by
  intro ranges
  induction ranges with
  | nil => left; rfl
  | cons e rest ih =>
    obtain ⟨lo, hi, stride, delta⟩ := e
    rw [caseDelta]
    by_cases hin : lo ≤ n ∧ n ≤ hi ∧ (n - lo) % stride = 0
    · right
      exact ⟨(lo, hi, stride, delta), List.mem_cons_self _ _, hin.1, hin.2.1, hin.2.2,
        by rw [if_pos hin]⟩
    · rw [if_neg hin]
      rcases ih with h | ⟨e, he, h⟩
      · exact Or.inl h
      · exact Or.inr ⟨e, List.mem_cons_of_mem _ he, h⟩

theorem caseDelta_eq_zero (m : Nat) :
    ∀ ranges : List (Nat × Nat × Nat × Int),
      (∀ e ∈ ranges, ¬ (e.1 ≤ m ∧ m ≤ e.2.1 ∧ (m - e.1) % e.2.2.1 = 0)) →
        caseDelta m ranges = 0 := by
  intro ranges
  induction ranges with
  | nil => intro _; rfl
  | cons e rest ih =>
    obtain ⟨lo, hi, stride, delta⟩ := e
    intro h
    rw [caseDelta, if_neg (h _ (List.mem_cons_self _ _))]
    exact ih fun e he => h e (List.mem_cons_of_mem _ he)

theorem isSpace_eq (c : Char) : isSpace c = isSpaceNat c.toNat := rfl

theorem toNat_ofNat_of_valid (m : Nat) (h : m.isValidChar) : (Char.ofNat m).toNat = m := by
  rw [Char.ofNat, dif_pos h]
  rfl

theorem toLowerRune_eq (c : Char) : toLowerRune c = Char.ofNat (lowerNat c.toNat) := by
  unfold toLowerRune lowerNat
  have hA : 'A'.toNat = 65 := rfl
  have hZ : 'Z'.toNat = 90 := rfl
  rw [hA, hZ]
  split
  · split
    · rfl
    · rw [Char.ofNat_toNat]
  · rfl

/-- Lower-casing a code point: the image is a valid code point that lower-casing leaves
alone, and it is white space exactly when the code point is. -/
theorem lowerNat_spec (n : Nat) (hv : n.isValidChar) :
    lowerNat (lowerNat n) = lowerNat n ∧ (lowerNat n).isValidChar ∧
      isSpaceNat (lowerNat n) = isSpaceNat n := by
  by_cases hlt : n < 128
  · by_cases hup : 65 ≤ n ∧ n ≤ 90
    · have h1 : lowerNat n = n + 32 := by
        unfold lowerNat
        rw [if_pos hlt, if_pos hup]
      have h2 : lowerNat (n + 32) = n + 32 := by
        unfold lowerNat
        rw [if_pos (by omega), if_neg (by omega)]
      have h3 : isSpaceNat n = false := by
        unfold isSpaceNat
        simp only [Bool.or_eq_false_iff, Bool.and_eq_false_iff, beq_eq_false_iff_ne, ne_eq,
          decide_eq_false_iff_not]
        omega
      have h4 : isSpaceNat (n + 32) = false := by
        unfold isSpaceNat
        simp only [Bool.or_eq_false_iff, Bool.and_eq_false_iff, beq_eq_false_iff_ne, ne_eq,
          decide_eq_false_iff_not]
        omega
      rw [h1, h2, h3, h4]
      exact ⟨rfl, Or.inl (by omega), rfl⟩
    · have h1 : lowerNat n = n := by
        unfold lowerNat
        rw [if_pos hlt, if_neg hup]
      rw [h1, h1]
      exact ⟨rfl, hv, rfl⟩
  · have hdef : lowerNat n = ((n : Int) + caseDelta n lowerRanges).toNat := by
      unfold lowerNat
      rw [if_neg hlt]
    rcases caseDelta_cases n lowerRanges with hz | ⟨e, he, hlo, hhi, hstr, hd⟩
    · have h1 : lowerNat n = n := by
        rw [hdef, hz]
        simp
      rw [h1, h1]
      exact ⟨rfl, hv, rfl⟩
    · have hok := (List.all_eq_true.1 lowerRanges_ok) e he
      unfold entryOk imageOk at hok
      simp only [Bool.and_eq_true, Bool.or_eq_true, decide_eq_true_eq, Nat.blt_eq,
        List.all_eq_true] at hok
      obtain ⟨⟨hnn, hsrc⟩, ⟨⟨hvalid, himg⟩, hascii⟩, hmiss⟩ := hok
      have hm1 : ((e.1 : Int) + e.2.2.2).toNat ≤ lowerNat n := by
        rw [hdef, hd]; omega
      have hm2 : lowerNat n ≤ ((e.2.1 : Int) + e.2.2.2).toNat := by
        rw [hdef, hd]; omega
      have hm3 : (e.2.2.1 == 2 || e.1 == e.2.1) = true →
          (lowerNat n - ((e.1 : Int) + e.2.2.2).toNat) % 2 = 0 := by
        intro hsp
        simp only [Bool.or_eq_true, beq_iff_eq] at hsp
        rw [hdef, hd]
        rcases hsp with hs | hs
        · rw [hs] at hstr
          omega
        · omega
      have hfix : lowerNat (lowerNat n) = lowerNat n := by
        by_cases hlt' : lowerNat n < 128
        · unfold lowerNat
          rw [if_pos (by simpa [lowerNat] using hlt'), if_neg (by
            have : ¬ (65 ≤ lowerNat n ∧ lowerNat n ≤ 90) := by omega
            simpa [lowerNat] using this)]
        · have hzero : caseDelta (lowerNat n) lowerRanges = 0 :=
            caseDelta_eq_zero _ _ fun e' he' =>
              spanMisses_sound _ _ _ e' (hmiss e' he') _ hm1 hm2 hm3
          generalize lowerNat n = m at hlt' hzero
          unfold lowerNat
          rw [if_neg hlt', hzero]
          simp
      refine ⟨hfix, ?_, ?_⟩
      · rcases hvalid with h | ⟨h, h'⟩
        · exact Or.inl (by omega)
        · exact Or.inr ⟨by omega, by omega⟩
      · rw [spanFree_sound _ _ _ himg hm1 hm2, spanFree_sound _ _ _ hsrc hlo hhi]

/-- Lower-casing a rune twice is lower-casing it once. -/
theorem toLowerRune_idem (c : Char) : toLowerRune (toLowerRune c) = toLowerRune c := by
  obtain ⟨h1, h2, _⟩ := lowerNat_spec c.toNat c.valid
  rw [toLowerRune_eq (toLowerRune c), toLowerRune_eq c, toNat_ofNat_of_valid _ h2, h1]

/-- Lower-casing neither makes nor removes white space. -/
theorem isSpace_toLowerRune (c : Char) : isSpace (toLowerRune c) = isSpace c := by
  obtain ⟨_, h2, h3⟩ := lowerNat_spec c.toNat c.valid
  rw [isSpace_eq, isSpace_eq, toLowerRune_eq c, toNat_ofNat_of_valid _ h2, h3]

/-- The lower-casing of the program obeys `LowerLaw`. -/
theorem toLowerRune_law : LowerLaw toLowerRune :=
  ⟨toLowerRune_idem, isSpace_toLowerRune, by decide⟩

/-! ## Further facts on header detection and cell access -/

/-- C11: in every map returned by `findHeaderRow`, two required labels whose
normalizations differ are both bound and are resolved to two different column indices. -/
theorem header_map_injective (rows : List (List String)) (required : List String)
    (headers : GoMap Int) (r : Nat) (h : findHeaderRow rows required = .ok (headers, r))
    (a b : String) (ha : a ∈ required) (hb : b ∈ required)
    (hne : normalize a ≠ normalize b) :
    (∃ ca cb : Int, headers.get? (normalize a) = some ca ∧
        headers.get? (normalize b) = some cb ∧ ca ≠ cb) ∧
      headers.getOr (normalize a) 0 ≠ headers.getOr (normalize b) 0 := by
  obtain ⟨i, row, _, _, hh, hq, _⟩ := (findHeaderRowFrom_eq_ok required rows 0 headers r).1 h
  subst hh
  have hkey : ∀ q ∈ required, ∃ c : Int, (rowHeaders row).get? (normalize q) = some c := by
    intro q hq'
    obtain ⟨v, hv, hvne, hvk⟩ := hq q hq'
    have hs := (rowHeaders_isSome row (normalize q)).2 ⟨by rw [← hvk]; exact hvne, v, hv, hvk⟩
    exact Option.isSome_iff_exists.1 hs
  obtain ⟨ca, hca⟩ := hkey a ha
  obtain ⟨cb, hcb⟩ := hkey b hb
  have hdiff : ca ≠ cb := by
    intro heq
    obtain ⟨_, na, hna, ⟨va, hva, hvak⟩, _⟩ := (rowHeaders_get?_eq_some row _ ca).1 hca
    obtain ⟨_, nb, hnb, ⟨vb, hvb, hvbk⟩, _⟩ := (rowHeaders_get?_eq_some row _ cb).1 hcb
    have hn : na = nb := by omega
    subst hn
    rw [hva] at hvb
    cases hvb
    exact hne (hvak.symm.trans hvbk)
  refine ⟨⟨ca, cb, hca, hcb, hdiff⟩, ?_⟩
  unfold GoMap.getOr
  rw [hca, hcb]
  exact hdiff

/-- A witness of C11: "driver name" and "supervisor name" in the secondary header row. -/
theorem header_map_injective_witness :
    (∃ ca cb : Int, (rowHeaders ["Driver Name", "Supervisor Name"]).get?
          (normalize "driver name") = some ca ∧
        (rowHeaders ["Driver Name", "Supervisor Name"]).get? (normalize "supervisor name")
          = some cb ∧ ca ≠ cb) ∧
      (rowHeaders ["Driver Name", "Supervisor Name"]).getOr (normalize "driver name") 0 ≠
        (rowHeaders ["Driver Name", "Supervisor Name"]).getOr (normalize "supervisor name") 0 :=
  header_map_injective scenarioV2 v2Required (rowHeaders ["Driver Name", "Supervisor Name"]) 0
    (by decide) "driver name" "supervisor name" (by decide) (by decide) (by decide)

/-- C17: if no row after the header row of the secondary grid has a driver name that
splits into two non-empty parts whose key is in the roster index, the reconcile loop
ends with an empty Master List and an empty Correction Set. -/
theorem no_match_no_output (v2Rows : List (List String)) (v2Headers : GoMap Int)
    (v2HeaderRow : Nat) (driverMap : GoMap DriverInfo)
    (hno : ∀ row ∈ v2Rows.drop (v2HeaderRow + 1), matchRow v2Headers driverMap row = none) :
    reconcile v2Rows v2Headers v2HeaderRow driverMap = ([], []) := by
  have hloop : ∀ (rows : List (List String)) (i : Nat) (st : ReconState),
      (∀ row ∈ rows, matchRow v2Headers driverMap row = none) →
        reconcileFrom v2Headers driverMap rows i st = st := by
    intro rows
    induction rows with
    | nil => intro i st _; rfl
    | cons row rows ih =>
      intro i st hall
      rw [reconcileFrom, reconcileRow_eq, hall row (List.mem_cons_self _ _)]
      exact ih _ _ fun row' hrow' => hall row' (List.mem_cons_of_mem _ hrow')
  unfold reconcile
  rw [hloop _ _ _ hno]
  rfl

/-- A witness of C17: the row ["Unknown Person", "X"] against the roster of the scenario. -/
theorem no_match_no_output_witness :
    reconcile unknownV2 (rowHeaders (unknownV2.getD 0 [])) 0
        (buildIndex scenarioAllopsSwapped (rowHeaders (scenarioAllopsSwapped.getD 0 [])) 0)
      = ([], []) :=
  no_match_no_output unknownV2 (rowHeaders (unknownV2.getD 0 [])) 0
    (buildIndex scenarioAllopsSwapped (rowHeaders (scenarioAllopsSwapped.getD 0 [])) 0)
    (by decide)

/-- C18: if `findHeaderRow` succeeds on a grid with map m and row index r, and none of
the rows of p contains all required normalized labels, then on p followed by the grid it
succeeds with the same map m and the row index r + length(p). -/
theorem findHeaderRow_banner_rows (grid banner : List (List String)) (required : List String)
    (headers : GoMap Int) (r : Nat) (h : findHeaderRow grid required = .ok (headers, r))
    (hbanner : ∀ row ∈ banner, ¬ ∀ req ∈ required, ∃ v ∈ row, normalize v = normalize req) :
    findHeaderRow (banner ++ grid) required = .ok (headers, r + banner.length) := by
  obtain ⟨i, row, hr, hrow, hh, hq, hearlier⟩ :=
    (findHeaderRowFrom_eq_ok required grid 0 headers r).1 h
  refine (findHeaderRowFrom_eq_ok required (banner ++ grid) 0 headers _).2
    ⟨banner.length + i, row, by omega, ?_, hh, hq, ?_⟩
  · rw [List.getElem?_append_right (by omega)]
    simpa using hrow
  · intro j row' hj hrow'
    by_cases hjb : j < banner.length
    · rw [List.getElem?_append_left hjb] at hrow'
      intro hqual
      refine hbanner row' (List.getElem?_mem hrow') ?_
      intro req hreq
      obtain ⟨v, hv, _, hvk⟩ := hqual req hreq
      exact ⟨v, hv, hvk⟩
    · rw [List.getElem?_append_right (by omega)] at hrow'
      exact hearlier (j - banner.length) row' (by omega) hrow'

/-- A witness of C18: two title rows above the secondary grid of the scenario. -/
theorem findHeaderRow_banner_rows_witness :
    findHeaderRow ([["Overlooked and Returned"], ["", "Driver Name"]] ++ scenarioV2) v2Required
      = .ok (rowHeaders ["Driver Name", "Supervisor Name"],
          0 + ([["Overlooked and Returned"], ["", "Driver Name"]] : List (List String)).length) :=
  findHeaderRow_banner_rows scenarioV2 [["Overlooked and Returned"], ["", "Driver Name"]]
    v2Required (rowHeaders ["Driver Name", "Supervisor Name"]) 0 (by decide) (by decide)

/-- C19: cell access is total: for every row and every integer index, `cell` returns the
empty string when the index is negative or at least the length of the row, and otherwise
the cell at that index with leading and trailing white space trimmed. -/
theorem cell_total (row : List String) (idx : Int) :
    (idx < 0 ∨ (row.length : Int) ≤ idx → cell row idx = "") ∧
      (0 ≤ idx ∧ idx < (row.length : Int) →
        ∃ v, row[idx.toNat]? = some v ∧ cell row idx = trimSpace v) := by
  unfold cell
  constructor
  · intro h
    rw [if_pos (by omega)]
  · rintro ⟨h0, h1⟩
    have hlt : idx.toNat < row.length := by omega
    refine ⟨row[idx.toNat], List.getElem?_eq_getElem hlt, ?_⟩
    rw [if_neg (by omega), List.getD_eq_getElem?_getD, List.getElem?_eq_getElem hlt]
    rfl

/-! ## The name splitter -/

theorem trimSpace_data (s : String) :
    (trimSpace s).data = (s.data.dropWhile isSpace).rdropWhile isSpace := rfl

theorem length_splitOnP {α : Type} (p : α → Bool) (l : List α) :
    (l.splitOnP p).length = l.countP p + 1 := by
  induction l with
  | nil => simp
  | cons x xs ih =>
    rw [List.splitOnP_cons]
    by_cases hx : p x = true
    · simp [hx, ih]
    · simp [hx, ih]

theorem split_length (s : String) (sep : Char) :
    (split s sep).length = s.data.count sep + 1 := by
  unfold split
  rw [List.length_map, length_splitOnP]
  rfl

theorem containsRune_iff (s : String) (c : Char) : containsRune s c = true ↔ c ∈ s.data := by
  unfold containsRune
  simp

theorem fields_nonempty (s : String) : ∀ w ∈ fields s, w ≠ "" := by
  intro w hw
  unfold fields at hw
  simp only [List.mem_map, List.mem_filter] at hw
  obtain ⟨l, ⟨_, hl⟩, rfl⟩ := hw
  intro h
  have hnil : l = [] := congrArg String.data h
  subst hnil
  simp at hl

/-- The comma branch of `splitDriverName`: exactly one comma in the trimmed text. -/
theorem splitDriverName_comma (full : String) (a b : List Char)
    (hfull : (trimSpace full).data = a ++ ',' :: b) (ha : ',' ∉ a) (hb : ',' ∉ b) :
    splitDriverName full = (trimSpace ⟨b⟩, trimSpace ⟨a⟩) := by
  have hne : trimSpace full ≠ "" := by
    intro h
    rw [h] at hfull
    simp at hfull
  have hcont : containsRune (trimSpace full) ',' = true := by
    rw [containsRune_iff, hfull]
    simp
  have hsplit : split (trimSpace full) ',' = [⟨a⟩, ⟨b⟩] := by
    unfold split
    have ha' : ∀ x ∈ a, ¬ (fun c : Char => c == ',') x = true := by
      intro x hx hc
      rw [beq_iff_eq] at hc
      subst hc
      exact ha hx
    have hb' : ∀ x ∈ b, ¬ (fun c : Char => c == ',') x = true := by
      intro x hx hc
      rw [beq_iff_eq] at hc
      subst hc
      exact hb hx
    rw [hfull, List.splitOnP_first _ a ha' ',' (by simp), List.splitOnP_eq_single _ b hb']
    rfl
  unfold splitDriverName
  simp only [hne, if_false, hcont, hsplit]
  simp

/-- The white-space branch of `splitDriverName`: no comma, or two or more. -/
theorem splitDriverName_tokens (full : String) (h : (trimSpace full).data.count ',' ≠ 1) :
    splitDriverName full =
      if (fields (trimSpace full)).length < 2 then ("", "")
      else ((fields (trimSpace full)).head?.getD "", (fields (trimSpace full)).getLast?.getD "") := by
  have hbranch : ¬ (containsRune (trimSpace full) ',' = true ∧
      (split (trimSpace full) ',').length = 2) := by
    rw [split_length]
    rintro ⟨_, h2⟩
    omega
  unfold splitDriverName
  simp only [hbranch, if_false]
  by_cases hempty : trimSpace full = ""
  · simp only [hempty, if_true]
    have : fields "" = [] := by decide
    simp [this]
  · simp only [hempty, if_false]
    by_cases hlen : (fields (trimSpace full)).length < 2
    · simp only [hlen, if_true]
    · simp only [hlen, if_false]
      generalize fields (trimSpace full) = parts at hlen
      have hpos : parts ≠ [] := by
        intro h0
        subst h0
        simp at hlen
      congr 1
      · cases parts with
        | nil => exact absurd rfl hpos
        | cons p ps => simp
      · rw [List.getLast?_eq_getElem?, List.getD_eq_getElem?_getD]

/-- C14: for every input that, after trimming, contains exactly one comma, the name
splitter reads it as "Last, First" and returns (trimmed text after the comma, trimmed
text before the comma); so `splitDriverName "Doe, Jane"` is ("Jane", "Doe"). -/
theorem splitDriverName_last_first (full : String) (a b : List Char)
    (hfull : (trimSpace full).data = a ++ ',' :: b) (ha : ',' ∉ a) (hb : ',' ∉ b) :
    splitDriverName full = (trimSpace ⟨b⟩, trimSpace ⟨a⟩) ∧
      splitDriverName "Doe, Jane" = ("Jane", "Doe") :=
  ⟨splitDriverName_comma full a b hfull ha hb, by decide⟩

/-- A witness of C14: the input " Doe , Jane " with the parts "Doe " and " Jane". -/
theorem splitDriverName_last_first_witness :
    splitDriverName " Doe , Jane " = (trimSpace ⟨" Jane".data⟩, trimSpace ⟨"Doe ".data⟩) ∧
      splitDriverName "Doe, Jane" = ("Jane", "Doe") :=
  splitDriverName_last_first " Doe , Jane " "Doe ".data " Jane".data (by decide) (by decide)
    (by decide)

/-- C15: for every input that, after trimming, contains no comma or at least two commas,
the name splitter splits on runs of white space and returns ("", "") when there are fewer
than two tokens and otherwise (first token, last token); "Jane Q Doe" gives
("Jane", "Doe"), "Madonna" gives ("", ""), and "Doe, Jane, Jr" gives ("Doe,", "Jr"). -/
theorem splitDriverName_whitespace (full : String)
    (h : (trimSpace full).data.count ',' ≠ 1) :
    splitDriverName full =
        (if (fields (trimSpace full)).length < 2 then ("", "")
        else ((fields (trimSpace full)).head?.getD "",
          (fields (trimSpace full)).getLast?.getD "")) ∧
      splitDriverName "Jane Q Doe" = ("Jane", "Doe") ∧
      splitDriverName "Madonna" = ("", "") ∧
      splitDriverName "Doe, Jane, Jr" = ("Doe,", "Jr") :=
  ⟨splitDriverName_tokens full h, by decide, by decide, by decide⟩

/-- A witness of C15: "Jane Q Doe" has no comma. -/
theorem splitDriverName_whitespace_witness :
    splitDriverName "Jane Q Doe" =
        (if (fields (trimSpace "Jane Q Doe")).length < 2 then ("", "")
        else ((fields (trimSpace "Jane Q Doe")).head?.getD "",
          (fields (trimSpace "Jane Q Doe")).getLast?.getD "")) ∧
      splitDriverName "Jane Q Doe" = ("Jane", "Doe") ∧
      splitDriverName "Madonna" = ("", "") ∧
      splitDriverName "Doe, Jane, Jr" = ("Doe,", "Jr") :=
  splitDriverName_whitespace "Jane Q Doe" (by decide)

/-- C16 as stated fails: the input "Doe," has exactly one comma and gives the pair
("", "Doe"), and ", Jane" gives ("Jane", ""): one component empty, the other not. -/
theorem splitDriverName_one_empty :
    splitDriverName "Doe," = ("", "Doe") ∧ splitDriverName ", Jane" = ("Jane", "") := by
  decide

/-- C16 amended: the name splitter returns ("", "") for blank input; for every input
that, after trimming, does not contain exactly one comma the result is either a pair of
two non-empty components or the empty pair ("", ""); for an input with exactly one comma
the result is (trimmed text after the comma, trimmed text before the comma), in which
either component can be empty on its own. -/
theorem splitDriverName_all_or_nothing (full : String) :
    (trimSpace full = "" → splitDriverName full = ("", "")) ∧
      ((trimSpace full).data.count ',' ≠ 1 →
        splitDriverName full = ("", "") ∨
          ((splitDriverName full).1 ≠ "" ∧ (splitDriverName full).2 ≠ "")) ∧
      ∀ a b : List Char, (trimSpace full).data = a ++ ',' :: b → ',' ∉ a → ',' ∉ b →
        splitDriverName full = (trimSpace ⟨b⟩, trimSpace ⟨a⟩) := by
  refine ⟨?_, ?_, fun a b => splitDriverName_comma full a b⟩
  · intro h
    unfold splitDriverName
    simp [h]
  · intro h
    rw [splitDriverName_tokens full h]
    by_cases hlen : (fields (trimSpace full)).length < 2
    · left
      simp [hlen]
    · right
      simp only [hlen, if_false]
      have hne := fields_nonempty (trimSpace full)
      generalize fields (trimSpace full) = parts at hlen hne
      cases hparts : parts with
      | nil => subst hparts; simp at hlen
      | cons p ps =>
        subst hparts
        constructor
        · simpa using hne p (List.mem_cons_self _ _)
        · have hmem := List.getLast_mem (List.cons_ne_nil p ps)
          rw [List.getLast?_eq_getLast _ (List.cons_ne_nil p ps)]
          simpa using hne _ hmem

/-! ## The normalizer -/

theorem intercalate_go_data (acc sep : String) (l : List String) :
    (String.intercalate.go acc sep l).data =
      acc.data ++ (l.map fun a => sep.data ++ a.data).flatten := by
  induction l generalizing acc with
  | nil => simp [String.intercalate.go]
  | cons a as ih => simp [String.intercalate.go, ih, String.data_append]

theorem join_data (ws : List (List Char)) :
    (join (ws.map String.mk) " ").data = joinWords ws := by
  cases ws with
  | nil => rfl
  | cons w ws =>
    unfold join
    rw [List.map_cons, String.intercalate, intercalate_go_data, joinWords, List.map_map]
    rfl

theorem fields_eq (s : String) : fields s = (wordsOf s.data).map String.mk := rfl

theorem normalize_eq (s : String) : normalize s = normalizeWith toLowerRune s := rfl

/-- The text that `normalizeWith` returns: the words of the trimmed, cleaned text joined
by single spaces. -/
theorem normalizeWith_data (lower : Char → Char) (s : String) :
    (normalizeWith lower s).data =
      joinWords (wordsOf ((trimSpace s).data.map (cleanRune lower))) := by
  have hclean : (replaceAll (replaceAll (replaceAll
      (⟨(trimSpace s).data.map lower⟩ : String) '\u00a0' ' ') '\n' ' ') '\r' ' ').data =
        (trimSpace s).data.map (cleanRune lower) := by
    simp only [replaceAll, List.map_map]
    rfl
  unfold normalizeWith
  simp only [fields_eq, join_data, hclean]

theorem joinWords_cons_cons (w v : List Char) (ws : List (List Char)) :
    joinWords (w :: v :: ws) = w ++ ' ' :: joinWords (v :: ws) := by
  simp [joinWords]

theorem joinWords_singleton (w : List Char) : joinWords [w] = w := by
  simp [joinWords]

theorem isSpace_space : isSpace ' ' = true := by decide

theorem isSpace_cleanRune (lower : Char → Char) (hl : LowerLaw lower) (c : Char) :
    isSpace (cleanRune lower c) = isSpace c := by
  unfold cleanRune
  rw [← hl.2.1 c]
  generalize lower c = d
  by_cases h1 : d = '\u00a0'
  · subst h1; decide
  by_cases h2 : d = '\n'
  · subst h2; decide
  by_cases h3 : d = '\r'
  · subst h3; decide
  simp [h1, h2, h3]

theorem cleanRune_of_not_space (lower : Char → Char) (hl : LowerLaw lower) (c : Char)
    (h : isSpace (cleanRune lower c) = false) : cleanRune lower c = lower c := by
  rw [isSpace_cleanRune lower hl, ← hl.2.1] at h
  unfold cleanRune
  generalize lower c = d at h
  by_cases h1 : d = '\u00a0'
  · subst h1; exact absurd h (by decide)
  by_cases h2 : d = '\n'
  · subst h2; exact absurd h (by decide)
  by_cases h3 : d = '\r'
  · subst h3; exact absurd h (by decide)
  simp [h1, h2, h3]

theorem cleanRune_idem_of_not_space (lower : Char → Char) (hl : LowerLaw lower) (c : Char)
    (h : isSpace (cleanRune lower c) = false) :
    cleanRune lower (cleanRune lower c) = cleanRune lower c ∧
      lower (cleanRune lower c) = cleanRune lower c := by
  have h1 := cleanRune_of_not_space lower hl c h
  have h2 : isSpace (cleanRune lower (cleanRune lower c)) = false := by
    rw [isSpace_cleanRune lower hl, h]
  have h3 := cleanRune_of_not_space lower hl (cleanRune lower c) h2
  rw [h3, h1, hl.1]
  exact ⟨rfl, rfl⟩

/-- The pieces of `splitOnP` hold no separator and only elements of the list. -/
theorem mem_splitOnP {α : Type} (p : α → Bool) (l : List α) :
    ∀ w ∈ l.splitOnP p, ∀ c ∈ w, p c = false ∧ c ∈ l := by
  induction l with
  | nil => intro w hw c hc; simp at hw; subst hw; simp at hc
  | cons x xs ih =>
    intro w hw c hc
    rw [List.splitOnP_cons] at hw
    by_cases hx : p x = true
    · simp only [hx, if_true, List.mem_cons] at hw
      rcases hw with hw | hw
      · subst hw; simp at hc
      · exact ⟨(ih w hw c hc).1, List.mem_cons_of_mem _ (ih w hw c hc).2⟩
    · rw [if_neg hx] at hw
      cases hsp : xs.splitOnP p with
      | nil => exact absurd hsp (List.splitOnP_ne_nil p xs)
      | cons h t =>
        rw [hsp, List.modifyHead_cons, List.mem_cons] at hw
        rcases hw with hw | hw
        · subst hw
          rcases List.mem_cons.1 hc with hcx | hch
          · subst hcx
            exact ⟨by simpa using hx, List.mem_cons_self _ _⟩
          · have := ih h (by rw [hsp]; exact List.mem_cons_self _ _) c hch
            exact ⟨this.1, List.mem_cons_of_mem _ this.2⟩
        · have := ih w (by rw [hsp]; exact List.mem_cons_of_mem _ hw) c hc
          exact ⟨this.1, List.mem_cons_of_mem _ this.2⟩

theorem wordsOf_good (l : List Char) : ∀ w ∈ wordsOf l, goodWord w ∧ ∀ c ∈ w, c ∈ l := by
  intro w hw
  unfold wordsOf at hw
  rw [List.mem_filter] at hw
  refine ⟨⟨?_, fun c hc => (mem_splitOnP isSpace l w hw.1 c hc).1⟩,
    fun c hc => (mem_splitOnP isSpace l w hw.1 c hc).2⟩
  intro h
  subst h
  simp at hw

theorem wordsOf_cons_space (c : Char) (l : List Char) (h : isSpace c = true) :
    wordsOf (c :: l) = wordsOf l := by
  unfold wordsOf
  rw [List.splitOnP_cons, if_pos h]
  simp

theorem wordsOf_eq_nil (l : List Char) : wordsOf l = [] ↔ ∀ c ∈ l, isSpace c = true := by
  induction l with
  | nil => simp [wordsOf]
  | cons x xs ih =>
    by_cases hx : isSpace x = true
    · rw [wordsOf_cons_space x xs hx, ih]
      simp [hx]
    · constructor
      · intro h
        exfalso
        unfold wordsOf at h
        rw [List.splitOnP_cons, if_neg hx] at h
        cases hsp : xs.splitOnP isSpace with
        | nil => exact absurd hsp (List.splitOnP_ne_nil isSpace xs)
        | cons hd t =>
          rw [hsp, List.modifyHead_cons] at h
          simp [List.filter_cons] at h
      · intro h
        exact absurd (h x (List.mem_cons_self _ _)) hx

/-- Splitting joined words at white space gives the words back. -/
theorem wordsOf_joinWords (ws : List (List Char)) (h : ∀ w ∈ ws, goodWord w) :
    wordsOf (joinWords ws) = ws := by
  induction ws with
  | nil => simp [joinWords, wordsOf]
  | cons w ws ih =>
    have hw := h w (List.mem_cons_self _ _)
    have hw' : ∀ x ∈ w, ¬ isSpace x = true := by
      intro x hx
      rw [hw.2 x hx]
      simp
    have hkeep : (!w.isEmpty) = true := by
      cases w with
      | nil => exact absurd rfl hw.1
      | cons a b => rfl
    cases ws with
    | nil =>
      rw [joinWords_singleton]
      unfold wordsOf
      rw [List.splitOnP_eq_single isSpace w hw', List.filter_cons, hkeep]
      simp
    | cons v vs =>
      rw [joinWords_cons_cons]
      have ih' := ih fun u hu => h u (List.mem_cons_of_mem _ hu)
      unfold wordsOf at ih' ⊢
      rw [List.splitOnP_first isSpace w hw' ' ' isSpace_space, List.filter_cons, hkeep]
      simp only [if_true, ih']

theorem joinWords_eq_nil (ws : List (List Char)) (h : ∀ w ∈ ws, goodWord w) :
    joinWords ws = [] ↔ ws = [] := by
  cases ws with
  | nil => simp [joinWords]
  | cons w ws =>
    have hw := h w (List.mem_cons_self _ _)
    simp [joinWords, hw.1]

theorem mem_joinWords (ws : List (List Char)) :
    ∀ c ∈ joinWords ws, c = ' ' ∨ ∃ w ∈ ws, c ∈ w := by
  induction ws with
  | nil => intro c hc; simp [joinWords] at hc
  | cons w ws ih =>
    intro c hc
    cases ws with
    | nil =>
      rw [joinWords_singleton] at hc
      exact Or.inr ⟨w, List.mem_cons_self _ _, hc⟩
    | cons v vs =>
      rw [joinWords_cons_cons, List.mem_append, List.mem_cons] at hc
      rcases hc with hc | hc | hc
      · exact Or.inr ⟨w, List.mem_cons_self _ _, hc⟩
      · exact Or.inl hc
      · rcases ih c hc with h | ⟨u, hu, hcu⟩
        · exact Or.inl h
        · exact Or.inr ⟨u, List.mem_cons_of_mem _ hu, hcu⟩

theorem head?_joinWords (ws : List (List Char)) (h : ∀ w ∈ ws, goodWord w) :
    ∀ c, (joinWords ws).head? = some c → isSpace c = false := by
  intro c hc
  cases ws with
  | nil => simp [joinWords] at hc
  | cons w ws =>
    have hw := h w (List.mem_cons_self _ _)
    cases w with
    | nil => exact absurd rfl hw.1
    | cons a b =>
      simp only [joinWords, List.cons_append, List.head?_cons, Option.some.injEq] at hc
      subst hc
      exact hw.2 a (List.mem_cons_self _ _)

theorem getLast?_joinWords (ws : List (List Char)) (h : ∀ w ∈ ws, goodWord w) :
    ∀ c, (joinWords ws).getLast? = some c → isSpace c = false := by
  induction ws with
  | nil => intro c hc; simp [joinWords] at hc
  | cons w ws ih =>
    intro c hc
    have hw := h w (List.mem_cons_self _ _)
    cases ws with
    | nil =>
      rw [joinWords_singleton] at hc
      exact hw.2 c (List.mem_of_getLast?_eq_some hc)
    | cons v vs =>
      have hgood : ∀ u ∈ v :: vs, goodWord u := fun u hu => h u (List.mem_cons_of_mem _ hu)
      rw [joinWords_cons_cons] at hc
      cases hjw : joinWords (v :: vs) with
      | nil =>
        rw [joinWords_eq_nil _ hgood] at hjw
        cases hjw
      | cons a b =>
        rw [hjw, List.getLast?_append, List.getLast?_cons_cons,
          List.getLast?_eq_getLast _ (List.cons_ne_nil a b)] at hc
        simp only [Option.or, Option.some.injEq] at hc
        refine ih hgood c ?_
        rw [hjw, List.getLast?_eq_getLast _ (List.cons_ne_nil a b), hc]

theorem chain_of_no_space (w : List Char) (h : ∀ c ∈ w, c ≠ ' ') :
    w.Chain' fun a b => ¬ (a = ' ' ∧ b = ' ') := by
  induction w with
  | nil => exact List.chain'_nil
  | cons a w ih =>
    rw [List.chain'_cons']
    refine ⟨?_, ih fun c hc => h c (List.mem_cons_of_mem _ hc)⟩
    intro b _ hab
    exact h a (List.mem_cons_self _ _) hab.1

theorem goodWord_no_space (w : List Char) (h : goodWord w) : ∀ c ∈ w, c ≠ ' ' := by
  intro c hc hsp
  have := h.2 c hc
  rw [hsp, isSpace_space] at this
  cases this

/-- Joined words never hold two ordinary spaces in a row. -/
theorem chain_joinWords (ws : List (List Char)) (h : ∀ w ∈ ws, goodWord w) :
    (joinWords ws).Chain' fun a b => ¬ (a = ' ' ∧ b = ' ') := by
  induction ws with
  | nil => exact List.chain'_nil
  | cons w ws ih =>
    have hw := h w (List.mem_cons_self _ _)
    cases ws with
    | nil =>
      rw [joinWords_singleton]
      exact chain_of_no_space w (goodWord_no_space w hw)
    | cons v vs =>
      have hgood : ∀ u ∈ v :: vs, goodWord u := fun u hu => h u (List.mem_cons_of_mem _ hu)
      rw [joinWords_cons_cons, List.chain'_append]
      refine ⟨chain_of_no_space w (goodWord_no_space w hw), ?_, ?_⟩
      · rw [List.chain'_cons']
        refine ⟨?_, ih hgood⟩
        intro b hb hab
        have := head?_joinWords _ hgood b hb
        rw [hab.2, isSpace_space] at this
        cases this
      · intro a ha b _ hab
        exact goodWord_no_space w hw a (List.mem_of_mem_getLast? ha) hab.1

/-- Trimming leaves a text alone whose first and last runes are not white space. -/
theorem trim_eq_self (l : List Char) (hhead : ∀ c, l.head? = some c → isSpace c = false)
    (hlast : ∀ c, l.getLast? = some c → isSpace c = false) :
    (l.dropWhile isSpace).rdropWhile isSpace = l := by
  have hdrop : l.dropWhile isSpace = l := by
    cases l with
    | nil => rfl
    | cons a b =>
      rw [List.dropWhile_cons_of_neg]
      rw [hhead a rfl]
      simp
  rw [hdrop, List.rdropWhile_eq_self_iff]
  intro hl
  rw [hlast _ (List.getLast?_eq_getLast l hl)]
  simp

theorem cleanRune_space (lower : Char → Char) (hl : LowerLaw lower) :
    cleanRune lower ' ' = ' ' ∧ lower ' ' = ' ' := by
  refine ⟨?_, hl.2.2⟩
  unfold cleanRune
  rw [hl.2.2]
  decide

/-- The words of a cleaned text, and what they are made of. -/
theorem words_of_clean (lower : Char → Char) (hl : LowerLaw lower) (l : List Char) :
    ∀ w ∈ wordsOf (l.map (cleanRune lower)),
      goodWord w ∧ ∀ c ∈ w, cleanRune lower c = c ∧ lower c = c := by
  intro w hw
  obtain ⟨hgood, hsub⟩ := wordsOf_good _ w hw
  refine ⟨hgood, ?_⟩
  intro c hc
  obtain ⟨c0, _, hc0⟩ := List.mem_map.1 (hsub c hc)
  have hns : isSpace (cleanRune lower c0) = false := by
    rw [hc0]
    exact hgood.2 c hc
  rw [← hc0]
  exact cleanRune_idem_of_not_space lower hl c0 hns

/-- The runes of a normalized text are fixed by cleaning and by lower-casing. -/
theorem normalizeWith_runes_fixed (lower : Char → Char) (hl : LowerLaw lower) (s : String) :
    ∀ c ∈ (normalizeWith lower s).data, cleanRune lower c = c ∧ lower c = c := by
  intro c hc
  rw [normalizeWith_data] at hc
  rcases mem_joinWords _ c hc with h | ⟨w, hw, hcw⟩
  · rw [h]
    exact cleanRune_space lower hl
  · exact (words_of_clean lower hl _ w hw).2 c hcw

theorem normalizeWith_words_good (lower : Char → Char) (hl : LowerLaw lower) (s : String) :
    ∀ w ∈ wordsOf ((trimSpace s).data.map (cleanRune lower)), goodWord w :=
  fun w hw => (words_of_clean lower hl _ w hw).1

theorem trimSpace_normalizeWith (lower : Char → Char) (hl : LowerLaw lower) (s : String) :
    trimSpace (normalizeWith lower s) = normalizeWith lower s := by
  apply String.ext
  rw [trimSpace_data, normalizeWith_data]
  exact trim_eq_self _ (head?_joinWords _ (normalizeWith_words_good lower hl s))
    (getLast?_joinWords _ (normalizeWith_words_good lower hl s))

/-- Normalizing twice is normalizing once, for every lower-casing of runes that obeys
`LowerLaw`. -/
theorem normalizeWith_idem (lower : Char → Char) (hl : LowerLaw lower) (s : String) :
    normalizeWith lower (normalizeWith lower s) = normalizeWith lower s := by
  apply String.ext
  rw [normalizeWith_data lower (normalizeWith lower s), trimSpace_normalizeWith lower hl]
  have hmap : (normalizeWith lower s).data.map (cleanRune lower) =
      (normalizeWith lower s).data := by
    conv_rhs => rw [← List.map_id (normalizeWith lower s).data]
    apply List.map_congr_left
    intro c hc
    exact (normalizeWith_runes_fixed lower hl s c hc).1
  rw [hmap, normalizeWith_data, wordsOf_joinWords _ (normalizeWith_words_good lower hl s)]

/-- C12: `normalize` is idempotent: for every string s,
normalize(normalize(s)) = normalize(s); the same holds with any lower-casing of runes in
the place of `unicode.ToLower` that is idempotent, keeps white space white space and
other runes other runes, and fixes the ordinary space. -/
theorem normalize_idempotent (s : String) :
    normalize (normalize s) = normalize s ∧
      ∀ lower : Char → Char, LowerLaw lower →
        normalizeWith lower (normalizeWith lower s) = normalizeWith lower s :=
  ⟨normalizeWith_idem toLowerRune toLowerRune_law s,
    fun lower hl => normalizeWith_idem lower hl s⟩

/-- Only white space is trimmed away entirely. -/
theorem trimSpace_eq_empty (s : String) :
    (∀ c ∈ (trimSpace s).data, isSpace c = true) ↔ ∀ c ∈ s.data, isSpace c = true := by
  rw [trimSpace_data]
  constructor
  · intro h
    have h1 : ((s.data.dropWhile isSpace).rdropWhile isSpace).rdropWhile isSpace = [] :=
      List.rdropWhile_eq_nil_iff.2 h
    rw [List.rdropWhile_idempotent, List.rdropWhile_eq_nil_iff] at h1
    have h2 : (s.data.dropWhile isSpace).dropWhile isSpace = [] :=
      List.dropWhile_eq_nil_iff.2 h1
    rw [List.dropWhile_idempotent, List.dropWhile_eq_nil_iff] at h2
    exact h2
  · intro h c hc
    exact h c ((List.dropWhile_sublist _).subset
      ((List.rdropWhile_prefix _ _).sublist.subset hc))

/-- The shape of a normalized text, for every lower-casing of runes that obeys
`LowerLaw`. -/
theorem normalizeWith_shape (lower : Char → Char) (hl : LowerLaw lower) (s : String) :
    (∀ c, (normalizeWith lower s).data.head? = some c → isSpace c = false) ∧
      (∀ c, (normalizeWith lower s).data.getLast? = some c → isSpace c = false) ∧
      (∀ c ∈ (normalizeWith lower s).data, isSpace c = true → c = ' ') ∧
      (normalizeWith lower s).data.Chain' (fun a b => ¬ (a = ' ' ∧ b = ' ')) ∧
      (normalizeWith lower s).data.map lower = (normalizeWith lower s).data ∧
      (normalizeWith lower s = "" ↔ ∀ c ∈ s.data, isSpace c = true) := by
  have hgood := normalizeWith_words_good lower hl s
  refine ⟨?_, ?_, ?_, ?_, ?_, ?_⟩
  · rw [normalizeWith_data]
    exact head?_joinWords _ hgood
  · rw [normalizeWith_data]
    exact getLast?_joinWords _ hgood
  · intro c hc hsp
    rw [normalizeWith_data] at hc
    rcases mem_joinWords _ c hc with h | ⟨w, hw, hcw⟩
    · exact h
    · rw [(hgood w hw).2 c hcw] at hsp
      cases hsp
  · rw [normalizeWith_data]
    exact chain_joinWords _ hgood
  · conv_rhs => rw [← List.map_id (normalizeWith lower s).data]
    apply List.map_congr_left
    intro c hc
    exact (normalizeWith_runes_fixed lower hl s c hc).2
  · have hdata : normalizeWith lower s = "" ↔ (normalizeWith lower s).data = [] :=
      ⟨fun h => by rw [h], fun h => String.ext h⟩
    rw [hdata, normalizeWith_data, joinWords_eq_nil _ hgood, wordsOf_eq_nil]
    refine Iff.trans ?_ (trimSpace_eq_empty s)
    constructor
    · intro h c hc
      have := h (cleanRune lower c) (List.mem_map_of_mem _ hc)
      rwa [isSpace_cleanRune lower hl] at this
    · intro h c hc
      obtain ⟨c0, hc0, rfl⟩ := List.mem_map.1 hc
      rw [isSpace_cleanRune lower hl]
      exact h c0 hc0

/-- C13: for every string s, normalize(s) is defined and has no leading or trailing
white space, holds no white-space rune other than the ordinary space, holds no two
adjacent spaces, and is unchanged by lower-casing; normalize("") = "", and
normalize(s) = "" exactly when s consists only of white space; the same shape holds with
any lower-casing of runes in the place of `unicode.ToLower` that is idempotent, keeps
white space white space and other runes other runes, and fixes the ordinary space. -/
theorem normalize_canonical (s : String) :
    ((∀ c, (normalize s).data.head? = some c → isSpace c = false) ∧
      (∀ c, (normalize s).data.getLast? = some c → isSpace c = false) ∧
      (∀ c ∈ (normalize s).data, isSpace c = true → c = ' ') ∧
      (normalize s).data.Chain' (fun a b => ¬ (a = ' ' ∧ b = ' ')) ∧
      toLower (normalize s) = normalize s ∧
      normalize "" = "" ∧
      (normalize s = "" ↔ ∀ c ∈ s.data, isSpace c = true)) ∧
      ∀ lower : Char → Char, LowerLaw lower →
        (∀ c, (normalizeWith lower s).data.head? = some c → isSpace c = false) ∧
          (∀ c, (normalizeWith lower s).data.getLast? = some c → isSpace c = false) ∧
          (∀ c ∈ (normalizeWith lower s).data, isSpace c = true → c = ' ') ∧
          (normalizeWith lower s).data.Chain' (fun a b => ¬ (a = ' ' ∧ b = ' ')) ∧
          (normalizeWith lower s).data.map lower = (normalizeWith lower s).data ∧
          normalizeWith lower "" = "" ∧
          (normalizeWith lower s = "" ↔ ∀ c ∈ s.data, isSpace c = true) := by
  have hempty : ∀ lower : Char → Char, normalizeWith lower "" = "" := fun _ => rfl
  constructor
  · obtain ⟨h1, h2, h3, h4, h5, h6⟩ := normalizeWith_shape toLowerRune toLowerRune_law s
    exact ⟨h1, h2, h3, h4, String.ext h5, hempty toLowerRune, h6⟩
  · intro lower hl
    obtain ⟨h1, h2, h3, h4, h5, h6⟩ := normalizeWith_shape lower hl s
    exact ⟨h1, h2, h3, h4, h5, hempty lower, h6⟩

/-! ## One pass of reconciliation is enough -/

theorem trimSpace_empty : trimSpace "" = "" := by decide

theorem cell_eq (row : List String) (idx : Int) :
    cell row idx = if idx < 0 then "" else trimSpace (row.getD idx.toNat "") := by
  unfold cell
  by_cases hneg : idx < 0
  · rw [if_pos (Or.inl hneg), if_pos hneg]
  · rw [if_neg hneg]
    by_cases hlen : idx ≥ (row.length : Int)
    · rw [if_pos (Or.inr hlen), List.getD_eq_getElem?_getD,
        List.getElem?_eq_none (by omega)]
      exact trimSpace_empty.symm
    · rw [if_neg (by omega)]

theorem getD_setCell (row : List String) (col m : Nat) (value : String) :
    (setCell row col value).getD m "" = if m = col then value else row.getD m "" := by
  unfold setCell
  simp only [List.getD_eq_getElem?_getD, List.getElem?_set, List.length_append,
    List.length_replicate, List.getElem?_append, List.getElem?_replicate]
  by_cases hm : m = col
  · subst hm
    rw [if_pos rfl, if_pos (by omega), if_pos rfl]
    rfl
  · rw [if_neg (fun h => hm h.symm), if_neg hm]
    by_cases hlt : m < row.length
    · rw [if_pos hlt]
    · rw [if_neg hlt, List.getElem?_eq_none (by omega)]
      by_cases hrep : m - row.length < col + 1 - row.length
      · rw [if_pos hrep]
        rfl
      · rw [if_neg hrep]

theorem cell_setCell_same (row : List String) (col : Int) (value : String) (h : 0 ≤ col) :
    cell (setCell row col.toNat value) col = trimSpace value := by
  rw [cell_eq, if_neg (by omega), getD_setCell, if_pos rfl]

theorem cell_setCell_other (row : List String) (col idx : Int) (value : String)
    (h : 0 ≤ col) (hne : idx ≠ col) :
    cell (setCell row col.toNat value) idx = cell row idx := by
  rw [cell_eq, cell_eq]
  by_cases hneg : idx < 0
  · rw [if_pos hneg, if_pos hneg]
  · rw [if_neg hneg, if_neg hneg, getD_setCell, if_neg (by omega)]

theorem trimSpace_idem (s : String) : trimSpace (trimSpace s) = trimSpace s := by
  apply String.ext
  rw [trimSpace_data (trimSpace s)]
  apply trim_eq_self
  · intro c hc
    rw [trimSpace_data] at hc
    obtain ⟨t, ht⟩ := List.rdropWhile_prefix isSpace (s.data.dropWhile isSpace)
    cases hrd : (s.data.dropWhile isSpace).rdropWhile isSpace with
    | nil => rw [hrd] at hc; cases hc
    | cons a r =>
      rw [hrd] at hc ht
      simp only [List.head?_cons, Option.some.injEq] at hc
      subst hc
      have hhead := List.head?_dropWhile_not isSpace s.data
      rw [← ht] at hhead
      simpa using hhead
  · intro c hc
    rw [trimSpace_data] at hc
    cases hrd : (s.data.dropWhile isSpace).rdropWhile isSpace with
    | nil => rw [hrd] at hc; cases hc
    | cons a r =>
      have hne : (s.data.dropWhile isSpace).rdropWhile isSpace ≠ [] := by
        rw [hrd]; exact List.cons_ne_nil _ _
      have hlast := List.rdropWhile_last_not isSpace (s.data.dropWhile isSpace) hne
      rw [List.getLast?_eq_getLast _ hne, Option.some.injEq] at hc
      rw [← hc]
      simpa using hlast

theorem normalize_trimSpace (s : String) : normalize (trimSpace s) = normalize s := by
  unfold normalize
  rw [trimSpace_idem]

theorem matchRow_correctedRow (v2Headers : GoMap Int) (driverMap : GoMap DriverInfo)
    (hdiff : v2Headers.getOr "driver name" 0 ≠ v2Headers.getOr "supervisor name" 0)
    (hsup : 0 ≤ v2Headers.getOr "supervisor name" 0) (row : List String) :
    matchRow v2Headers driverMap (correctedRow v2Headers driverMap row) =
      matchRow v2Headers driverMap row := by
  unfold correctedRow
  cases hm : matchRow v2Headers driverMap row with
  | none => exact hm
  | some info =>
    by_cases hcur : normalize (cell row (v2Headers.getOr "supervisor name" 0))
        = normalize info.ManagerName
    · simp only [hcur, ne_eq, not_true_eq_false, if_false]
      exact hm
    · simp only [hcur, ne_eq, not_false_eq_true, if_true]
      rw [← hm]
      unfold matchRow
      rw [cell_setCell_other row _ _ _ hsup hdiff]

theorem correction_of_correctedRow (v2Headers : GoMap Int) (driverMap : GoMap DriverInfo)
    (hsup : 0 ≤ v2Headers.getOr "supervisor name" 0) (i : Nat) (row : List String)
    (info : DriverInfo) (hm : matchRow v2Headers driverMap row = some info) :
    expectedCorrection v2Headers i (correctedRow v2Headers driverMap row) info = [] := by
  unfold correctedRow expectedCorrection
  rw [hm]
  by_cases hcur : normalize (cell row (v2Headers.getOr "supervisor name" 0))
      = normalize info.ManagerName
  · simp [hcur]
  · simp only [hcur, ne_eq, not_false_eq_true, if_true]
    rw [cell_setCell_same row _ _ hsup, normalize_trimSpace]
    simp

theorem correctionsFrom_corrected (v2Headers : GoMap Int) (driverMap : GoMap DriverInfo)
    (hdiff : v2Headers.getOr "driver name" 0 ≠ v2Headers.getOr "supervisor name" 0)
    (hsup : 0 ≤ v2Headers.getOr "supervisor name" 0) (rows : List (List String)) :
    ∀ i : Nat, correctionsFrom v2Headers driverMap
      (rows.map (correctedRow v2Headers driverMap)) i = [] := by
  induction rows with
  | nil => intro i; rfl
  | cons row rows ih =>
    intro i
    rw [List.map_cons, correctionsFrom, ih, List.append_nil,
      matchRow_correctedRow v2Headers driverMap hdiff hsup]
    cases hm : matchRow v2Headers driverMap row with
    | none => rfl
    | some info => exact correction_of_correctedRow v2Headers driverMap hsup i row info hm

/-- The grid after the corrections of the rows from position `pre.length` on. -/
theorem applyCorrections_correctionsFrom (v2Headers : GoMap Int)
    (driverMap : GoMap DriverInfo) (hsup : 0 ≤ v2Headers.getOr "supervisor name" 0)
    (rest : List (List String)) :
    ∀ pre : List (List String),
      applyCorrections (pre ++ rest) (correctionsFrom v2Headers driverMap rest pre.length) =
        pre ++ rest.map (correctedRow v2Headers driverMap) := by
  induction rest with
  | nil => intro pre; simp [applyCorrections, correctionsFrom]
  | cons row rest ih =>
    intro pre
    have hih := ih (pre ++ [correctedRow v2Headers driverMap row])
    rw [List.length_append, List.length_singleton, List.append_assoc,
      List.singleton_append] at hih
    unfold applyCorrections at hih ⊢
    rw [correctionsFrom, List.foldl_append, List.map_cons]
    have hstep : (match matchRow v2Headers driverMap row with
          | none => []
          | some info => expectedCorrection v2Headers pre.length row info).foldl
          applyCorrection (pre ++ row :: rest) =
        pre ++ correctedRow v2Headers driverMap row :: rest := by
      unfold correctedRow
      cases hm : matchRow v2Headers driverMap row with
      | none => rfl
      | some info =>
        unfold expectedCorrection
        by_cases hcur : normalize (cell row (v2Headers.getOr "supervisor name" 0))
            = normalize info.ManagerName
        · simp [hcur]
        · simp only [hcur, ne_eq, not_false_eq_true, if_true, List.foldl_cons, List.foldl_nil]
          unfold applyCorrection
          simp only [if_neg (not_lt.2 hsup)]
          rw [List.getElem?_append_right (le_refl _)]
          simp
    exact (congrArg (fun g => List.foldl applyCorrection g
      (correctionsFrom v2Headers driverMap rest (pre.length + 1))) hstep).trans
        (hih.trans (by simp))

theorem reconcile_corrections (v2Rows : List (List String)) (v2Headers : GoMap Int)
    (v2HeaderRow : Nat) (driverMap : GoMap DriverInfo) :
    (reconcile v2Rows v2Headers v2HeaderRow driverMap).2 =
      correctionsFrom v2Headers driverMap (v2Rows.drop (v2HeaderRow + 1)) (v2HeaderRow + 1) := by
  unfold reconcile
  simp only [reconcileFrom_corrections, ReconState.init, List.nil_append]

/-- C20: for every secondary grid, header map whose "driver name" and "supervisor name"
columns differ (column indices being zero-based, the supervisor index is not negative),
header row index and roster index, applying the Correction Set to the grid and running
the reconcile loop again yields the same Master List and an empty Correction Set. -/
theorem reconcile_fixpoint (v2Rows : List (List String)) (v2Headers : GoMap Int)
    (v2HeaderRow : Nat) (driverMap : GoMap DriverInfo)
    (hdiff : v2Headers.getOr "driver name" 0 ≠ v2Headers.getOr "supervisor name" 0)
    (hsup : 0 ≤ v2Headers.getOr "supervisor name" 0) :
    reconcile (applyCorrections v2Rows (reconcile v2Rows v2Headers v2HeaderRow driverMap).2)
        v2Headers v2HeaderRow driverMap =
      ((reconcile v2Rows v2Headers v2HeaderRow driverMap).1, []) := by
  have hgrid : (applyCorrections v2Rows
      (reconcile v2Rows v2Headers v2HeaderRow driverMap).2).drop (v2HeaderRow + 1) =
      (v2Rows.drop (v2HeaderRow + 1)).map (correctedRow v2Headers driverMap) := by
    rw [reconcile_corrections]
    by_cases hlen : v2HeaderRow + 1 ≤ v2Rows.length
    · have hpre : (v2Rows.take (v2HeaderRow + 1)).length = v2HeaderRow + 1 := by
        rw [List.length_take]; omega
      have happ := applyCorrections_correctionsFrom v2Headers driverMap hsup
        (v2Rows.drop (v2HeaderRow + 1)) (v2Rows.take (v2HeaderRow + 1))
      rw [List.take_append_drop, hpre] at happ
      rw [happ, List.drop_left' hpre]
    · have hdrop : v2Rows.drop (v2HeaderRow + 1) = [] := List.drop_eq_nil_of_le (by omega)
      rw [hdrop]
      simp only [correctionsFrom, applyCorrections, List.foldl_nil, List.map_nil]
      exact hdrop
  have hmatch : (matchRow v2Headers driverMap) ∘ (correctedRow v2Headers driverMap) =
      matchRow v2Headers driverMap :=
    funext fun row => matchRow_correctedRow v2Headers driverMap hdiff hsup row
  apply Prod.ext
  · rw [reconcile_master, hgrid, List.filterMap_map, hmatch, reconcile_master]
  · rw [reconcile_corrections, hgrid]
    exact correctionsFrom_corrected v2Headers driverMap hdiff hsup _ _

/-- A witness of C20: the scenario grid is corrected once and then stays as it is. -/
theorem reconcile_fixpoint_witness :
    reconcile
        (applyCorrections scenarioV2
          (reconcile scenarioV2 (rowHeaders (scenarioV2.getD 0 [])) 0
            (buildIndex scenarioAllops (rowHeaders (scenarioAllops.getD 0 [])) 0)).2)
        (rowHeaders (scenarioV2.getD 0 [])) 0
        (buildIndex scenarioAllops (rowHeaders (scenarioAllops.getD 0 [])) 0) =
      ((reconcile scenarioV2 (rowHeaders (scenarioV2.getD 0 [])) 0
        (buildIndex scenarioAllops (rowHeaders (scenarioAllops.getD 0 [])) 0)).1, []) :=
  reconcile_fixpoint scenarioV2 (rowHeaders (scenarioV2.getD 0 [])) 0
    (buildIndex scenarioAllops (rowHeaders (scenarioAllops.getD 0 [])) 0) (by decide)
    (by decide)

end SupeSync
